import Mathlib

set_option autoImplicit false

namespace MarketResearch

/-! Shallow embedding of `src/ML.py` (market-research-assistant).
Text is modelled as `List Char`; Python's ASCII whitespace / digit / letter
classes are modelled by explicit character predicates.  Fallible retriever
calls are modelled with `Except Unit`. -/

/-- Text is a list of characters; `str` converts a Lean string literal. -/
abbrev Str := List Char

def str (s : String) : Str := s.toList

/-- ASCII fragment of Python's whitespace class `\s` (and of `str.strip`). -/
def isWS (c : Char) : Bool :=
  c == ' ' || c == '\t' || c == '\n' || c == '\r' || c == Char.ofNat 11 || c == Char.ofNat 12

/-- Python's `[A-Za-z0-9]` character class used by `has_real_text`. -/
def isAlphaNumChar (c : Char) : Bool := c.isAlpha || c.isDigit

/-- `str.strip` from the right end only. -/
def stripEnd (l : Str) : Str := (l.reverse.dropWhile isWS).reverse

/-- Python `str.strip()` (ASCII whitespace model). -/
def strip (l : Str) : Str := stripEnd (l.dropWhile isWS)

def headWS : Str → Bool
  | [] => false
  | c :: _ => isWS c

/-- `re.sub(r"\s+", " ", t)`: every maximal whitespace run becomes one space. -/
def collapseWS : Str → Str
  | [] => []
  | c :: cs =>
    if isWS c then (if headWS cs then collapseWS cs else ' ' :: collapseWS cs)
    else c :: collapseWS cs

def lowerStr (l : Str) : Str := l.map Char.toLower

/-- `normalize` (ML.py line 53): collapse whitespace of the stripped, lowercased text. -/
def normalize (s : Str) : Str := collapseWS (lowerStr (strip s))

/-- `has_real_text` (ML.py line 56): non-empty and has an alphanumeric character. -/
def has_real_text (s : Str) : Bool := !(s.isEmpty) && (strip s).any isAlphaNumChar

/-- Bool-valued list-prefix test (by character equality). -/
def isPrefixOfB : Str → Str → Bool
  | [], _ => true
  | _ :: _, [] => false
  | a :: as, b :: bs => a == b && isPrefixOfB as bs

/-- Python's substring operator `pat in t`. -/
def containsSub (pat : Str) : Str → Bool
  | [] => isPrefixOfB pat []
  | c :: cs => isPrefixOfB pat (c :: cs) || containsSub pat cs

/-- `INDUSTRY_SIGNALS` (ML.py lines 61-83); the Python set literal as a duplicate-free list. -/
def INDUSTRY_SIGNALS : List Str :=
  [ str "industry", str "industries", str "industrial", str "sector", str "sectors",
    str "market", str "markets",
    str "business", str "commerce", str "commercial", str "trade",
    str "supply chain", str "value chain", str "manufacturing", str "production",
    str "distribution",
    str "wholesale", str "retail", str "logistics", str "procurement",
    str "competition", str "competitor", str "pricing", str "revenue", str "profit",
    str "cost",
    str "demand", str "supply", str "market share",
    str "regulation", str "regulated", str "compliance", str "standard", str "standards",
    str "services", str "service industry", str "financial services", str "healthcare",
    str "insurance",
    str "banking", str "telecommunications", str "energy", str "oil and gas", str "mining",
    str "construction", str "transport", str "transportation", str "automotive",
    str "pharmaceutical",
    str "biotechnology", str "aerospace", str "defense", str "agriculture",
    str "food industry",
    str "hospitality", str "tourism"]

/-- `score_industry_signals` (ML.py line 86): how many distinct signal phrases occur
in the normalized text. -/
def score_industry_signals (text : Str) : Nat :=
  let t := normalize text
  INDUSTRY_SIGNALS.countP (fun sig => containsSub sig t)

/-- A retrieved document: the loosely-typed metadata bag of the Python code is
modelled with one field per key the code reads (`[]` plays the role of both a
missing key and an empty value, exactly as Python's `or`-chains treat them),
plus `page_content`. -/
structure Doc where
  title : Str := []
  page_title : Str := []
  source : Str := []
  url : Str := []
  summary : Str := []
  description : Str := []
  snippet : Str := []
  content : Str := []
  page_content : Str := []
  deriving DecidableEq

/-- Python's `x or y` for strings (empty and missing are both falsy). -/
def orElse (a b : Str) : Str := if a.isEmpty then b else a

/-- `md.get("title") or md.get("page_title") or ""` (validate / build_report). -/
def docTitleOrEmpty (d : Doc) : Str := orElse d.title d.page_title

/-- `md.get("title") or md.get("page_title") or "Wikipedia page"` (extract_5_urls). -/
def docTitle (d : Doc) : Str := orElse d.title (orElse d.page_title (str "Wikipedia page"))

/-- `md.get("source") or md.get("url")` (extract_5_urls). -/
def docUrl (d : Doc) : Str := orElse d.source d.url

/-- `doc_text` (ML.py line 281): first non-empty of summary/description/snippet/content
metadata, else `page_content or ""`. -/
def doc_text (d : Doc) : Str :=
  orElse d.summary (orElse d.description (orElse d.snippet (orElse d.content d.page_content)))

/-- Loop body of `extract_5_urls` (ML.py lines 192-206): `out` and `seen_urls`
are the Python accumulators; the `len(out) == 5` break is checked after a
possible append, as in the source. -/
def extract_5_urls_go : List Doc → List (Str × Str) → List Str → List (Str × Str)
  | [], out, _ => out
  | d :: ds, out, seen =>
    let url := docUrl d
    let title := docTitle d
    let st := if !url.isEmpty && !(seen.contains url)
              then (out ++ [(title, url)], seen ++ [url]) else (out, seen)
    if st.1.length = 5 then st.1 else extract_5_urls_go ds st.1 st.2

/-- `extract_5_urls` (ML.py line 192): up to 5 distinct (title, url) pairs. -/
def extract_5_urls (docs : List Doc) : List (Str × Str) := extract_5_urls_go docs [] []

/-- The Wikipedia retriever boundary: the two call paths of the source
(`retriever.invoke` and `retriever.get_relevant_documents`), each of which can
either return documents or raise. -/
structure Retriever where
  invoke : Str → Except Unit (List Doc)
  get_relevant_documents : Str → Except Unit (List Doc)

/-- The `(is_valid, message, docs, title_url_pairs)` tuple returned by
`validate_industry_with_wikipedia`. -/
structure ValidationResult where
  accepted : Bool
  message : Str
  docs : List Doc
  links : List (Str × Str)
  deriving DecidableEq

instance {ε α : Type} [DecidableEq ε] [DecidableEq α] : DecidableEq (Except ε α)
  | Except.error a, Except.error b =>
    match decEq a b with
    | isTrue h => isTrue (by rw [h])
    | isFalse h => isFalse (by intro hc; injection hc; tauto)
  | Except.ok a, Except.ok b =>
    match decEq a b with
    | isTrue h => isTrue (by rw [h])
    | isFalse h => isFalse (by intro hc; injection hc; tauto)
  | Except.error _, Except.ok _ => isFalse (by intro hc; cases hc)
  | Except.ok _, Except.error _ => isFalse (by intro hc; cases hc)

/-- ASCII apostrophe (U+0027), used inside the user-facing messages. -/
def sq : Char := Char.ofNat 39

/-- Right single quotation mark (U+2019), used inside the user-facing messages. -/
def rq : Char := Char.ofNat 8217

def msg_missing_input : Str := str "Step 1: Please enter an industry (required)."

def msg_no_results (industry : Str) : Str :=
  str "Step 1: No Wikipedia results for " ++ [sq] ++ industry ++ [sq] ++
    str ". Try a clearer industry term."

def msg_insufficient (industry : Str) : Str :=
  str "Step 1: Not enough Wikipedia results for " ++ [sq] ++ industry ++ [sq] ++
    str ". Try a clearer industry term (e.g., " ++ [sq] ++ str "semiconductor industry" ++
    [sq] ++ str ", " ++ [sq] ++ str "banking sector" ++ [sq] ++ str ")."

def msg_no_urls (industry : Str) : Str :=
  str "Step 1: I couldn" ++ [rq] ++ str "t extract 5 distinct Wikipedia URLs for " ++
    [sq] ++ industry ++ [sq] ++ str ". Try adding " ++ [sq] ++ str "industry" ++ [sq] ++
    str ", " ++ [sq] ++ str "sector" ++ [sq] ++ str ", or a more specific term."

def msg_not_industry (industry : Str) : Str :=
  str "Step 1: " ++ [sq] ++ industry ++ [sq] ++ str " doesn" ++ [rq] ++
    str "t look like an industry term based on Wikipedia results. Try phrasing it like " ++
    [sq] ++ str "X industry" ++ [sq] ++ str " / " ++ [sq] ++ str "X sector" ++ [sq] ++
    str " / " ++ [sq] ++ str "X market" ++ [sq] ++ str "."

/-- Query disambiguation (ML.py lines 115-119): append " industry" when none of
the three keywords occurs in the normalized query. -/
def disambig_query (industry : Str) : Str :=
  if [ str "industry", str "sector", str "market"].all
      (fun k => !(containsSub k (normalize industry)))
  then industry ++ str " industry" else industry

/-- The `try: retriever.invoke ... except: retriever.get_relevant_documents ...`
block (ML.py lines 122-125); an error of the second call propagates. -/
def retrieve_docs (r : Retriever) (query : Str) : Except Unit (List Doc) :=
  match r.invoke query with
  | Except.ok ds => Except.ok ds
  | Except.error _ => r.get_relevant_documents query

/-- The per-document signal score on title + first 500 characters of the body
(ML.py lines 138-141 and 173-176). -/
def doc_signal_score (d : Doc) : Nat :=
  score_industry_signals (docTitleOrEmpty d ++ str " " ++ d.page_content.take 500)

/-- Relevance filter (ML.py lines 136-142). -/
def relevance_filter (docs : List Doc) (min_signal_hits_per_doc : Nat) : List Doc :=
  docs.filter (fun d => min_signal_hits_per_doc ≤ doc_signal_score d)

/-- `docs_to_use` (ML.py line 145): the filtered docs when they suffice, else all. -/
def docs_to_use (docs : List Doc) (min_results min_signal_hits_per_doc : Nat) : List Doc :=
  let filtered := relevance_filter docs min_signal_hits_per_doc
  if min_results ≤ filtered.length then filtered else docs

/-- The `signal_docs` counter of the industry-ness gate (ML.py lines 171-178). -/
def signal_doc_count (chosen : List Doc) (min_results min_signal_hits_per_doc : Nat) : Nat :=
  (chosen.take min_results).countP (fun d => min_signal_hits_per_doc ≤ doc_signal_score d)

/-- `validate_industry_with_wikipedia` (ML.py lines 91-189); the Python locals
`docs_to_use` and `title_url_pairs` appear as the named functions applied at
each use site. -/
def validate_industry_with_wikipedia (industry : Str) (retriever : Retriever)
    (min_results : Nat := 5) (min_signal_docs : Nat := 2)
    (min_signal_hits_per_doc : Nat := 1) : Except Unit ValidationResult :=
  if !(has_real_text industry) then
    Except.ok ⟨false, msg_missing_input, [], []⟩
  else
    match retrieve_docs retriever (disambig_query industry) with
    | Except.error e => Except.error e
    | Except.ok docs =>
      if docs.isEmpty then Except.ok ⟨false, msg_no_results industry, [], []⟩
      else if (docs_to_use docs min_results min_signal_hits_per_doc).length < min_results then
        Except.ok ⟨false, msg_insufficient industry,
          docs_to_use docs min_results min_signal_hits_per_doc, []⟩
      else if (extract_5_urls (docs_to_use docs min_results min_signal_hits_per_doc)).length
          < 5 then
        Except.ok ⟨false, msg_no_urls industry,
          docs_to_use docs min_results min_signal_hits_per_doc,
          extract_5_urls (docs_to_use docs min_results min_signal_hits_per_doc)⟩
      else if score_industry_signals industry = 0 ∧
          signal_doc_count (docs_to_use docs min_results min_signal_hits_per_doc)
            min_results min_signal_hits_per_doc < min_signal_docs then
        Except.ok ⟨false, msg_not_industry industry,
          docs_to_use docs min_results min_signal_hits_per_doc,
          extract_5_urls (docs_to_use docs min_results min_signal_hits_per_doc)⟩
      else
        Except.ok ⟨true, str "OK", docs_to_use docs min_results min_signal_hits_per_doc,
          extract_5_urls (docs_to_use docs min_results min_signal_hits_per_doc)⟩

/-- Python `str.split()` with no separator (used by `word_count` and the word
caps): splits on whitespace runs, producing no empty tokens; `cur` is the word
currently being accumulated. -/
def wordsAux (cur : Str) : Str → List Str
  | [] => if cur.isEmpty then [] else [cur]
  | c :: cs =>
    if isWS c then (if cur.isEmpty then wordsAux [] cs else cur :: wordsAux [] cs)
    else wordsAux (cur ++ [c]) cs

def wordsOf (l : Str) : List Str := wordsAux [] l

/-- `word_count` (ML.py line 215): `len((text or "").split())`. -/
def word_count (t : Str) : Nat := (wordsOf t).length

/-- Python `sep.join ws`. -/
def joinWith (sep : Str) : List Str → Str
  | [] => []
  | [w] => w
  | w :: ws => w ++ sep ++ joinWith sep ws

def joinWords (ws : List Str) : Str := joinWith (str " ") ws

def joinLines (ws : List Str) : Str := joinWith (str "\n") ws

def isSentPunct (c : Char) : Bool := c == '.' || c == '!' || c == '?'

/-- Sentence splitter on already-whitespace-collapsed text: cut after a `.`/`!`/`?`
that is followed by whitespace, consuming the separator, as
`re.split(r"(?<=[.!?])\s+", text)` does on the output of the preceding
`re.sub(r"\s+", " ", ...)` (whitespace runs are single spaces there). -/
def sentAux (cur : Str) : Str → List Str
  | [] => [cur]
  | [c] => [cur ++ [c]]
  | c :: c2 :: cs =>
    if isSentPunct c && isWS c2 then (cur ++ [c]) :: sentAux [] cs
    else sentAux (cur ++ [c]) (c2 :: cs)

/-- `split_sentences` (ML.py line 209). -/
def split_sentences (text : Str) : List Str :=
  let t := collapseWS (strip text)
  if t.isEmpty then [] else sentAux [] t

def endsWithNewline (l : Str) : Bool := l.getLast? == some '\n'

/-- The sentence loop of `add_sentences_up_to_budget` (ML.py lines 222-233);
note that the acceptance test compares against `word_count(out) + remaining`
for the *current* `out`, exactly as in the source. -/
def add_sentences_loop (out : Str) (remaining : Nat) : List Str → Str
  | [] => out
  | s :: rest =>
    let s2 := strip s
    if s2.isEmpty then add_sentences_loop out remaining rest
    else
      let sep := if !out.isEmpty && !(endsWithNewline out) then str "\n" else []
      let attempt := out ++ sep ++ s2
      if word_count attempt ≤ word_count out + remaining then
        add_sentences_loop attempt remaining rest
      else out

/-- `add_sentences_up_to_budget` (ML.py line 218). -/
def add_sentences_up_to_budget (existing candidate : Str) (remaining_words : Nat) : Str :=
  if remaining_words = 0 then existing
  else add_sentences_loop existing remaining_words (split_sentences candidate)

/-- The section loop of `enforce_lt_500_words_complete` (ML.py lines 239-244). -/
def enforce_loop (report : Str) (max_words : Nat) : List Str → Str
  | [] => report
  | sec :: rest =>
    let remaining := max_words - word_count report
    let report2 := add_sentences_up_to_budget report sec remaining
    if max_words ≤ word_count report2 then report2
    else enforce_loop report2 max_words rest

/-- `enforce_lt_500_words_complete` (ML.py line 238). -/
def enforce_lt_500_words_complete (report_sections : List Str) (max_words : Nat := 500) : Str :=
  strip (enforce_loop [] max_words report_sections)

/-- The bullet loop of `take_bullets_up_to_words` (ML.py lines 248-257). -/
def take_bullets_go (current max_words : Nat) : List Str → List Str
  | [] => []
  | b :: bs =>
    let b_words := (wordsOf b).length
    if current + b_words ≤ max_words then b :: take_bullets_go (current + b_words) max_words bs
    else []

/-- `take_bullets_up_to_words` (ML.py line 247). -/
def take_bullets_up_to_words (bullets : List Str) (max_words : Nat) : Str :=
  joinLines (take_bullets_go 0 max_words bullets)

/-! The four rewriting passes of `clean_wiki_text` (ML.py lines 260-279) after
the initial whitespace collapse, each modelled by a scanner equivalent to the
corresponding `re.sub`:
  pass 2  `(?<=\d)\s*([.,])\s*(?=\d)` → the punctuation character,
  pass 3  `(?<=\d)\s+(?=\d)` → nothing,
  pass 4  `(?:\b[A-Za-z]\b\s+){2,}\b[A-Za-z]\b` → match without its spaces,
  pass 5  `\s+([,.;:!?])` → the punctuation character. -/

def isAsciiLetter (c : Char) : Bool := ('A' ≤ c && c ≤ 'Z') || ('a' ≤ c && c ≤ 'z')

/-- ASCII fragment of the regex word class `\w` (for `\b` boundaries). -/
def isWordChar (c : Char) : Bool := isAsciiLetter c || c.isDigit || c == '_'

def headDigit : Str → Bool
  | [] => false
  | c :: _ => c.isDigit

def isNumPunct (c : Char) : Bool := c == '.' || c == ','

def prevDigit : Option Char → Bool
  | none => false
  | some c => c.isDigit

def prevNumPunct : Option Char → Bool
  | none => false
  | some c => isNumPunct c

/-- Pass-2 lookahead from a whitespace character that follows a digit:
`\s*[.,]\s*(?=\d)`. -/
def p2SpacedMatch (l : Str) : Bool :=
  match l.dropWhile isWS with
  | p :: r => isNumPunct p && headDigit (r.dropWhile isWS)
  | [] => false

/-- Pass 2 scanner.  `prev` is the previous input character (the lookbehind),
`p2d` records whether the character kept just before `prev` was a digit (so
that the spaces of `\s*` *after* the replaced `[.,]` are also dropped). -/
def p2go (p2d : Bool) (prev : Option Char) : Str → Str
  | [] => []
  | c :: cs =>
    if isWS c && prevDigit prev && p2SpacedMatch (c :: cs) then p2go p2d prev cs
    else if isWS c && p2d && prevNumPunct prev && headDigit (cs.dropWhile isWS) then
      p2go p2d prev cs
    else c :: p2go (prevDigit prev) (some c) cs

/-- Pass 3 scanner: drop a whitespace run strictly between two digits. -/
def p3go (pd : Bool) : Str → Str
  | [] => []
  | c :: cs =>
    if isWS c && pd && headDigit (cs.dropWhile isWS) then p3go pd cs
    else c :: p3go c.isDigit cs

def headNonWordOrEnd : Str → Bool
  | [] => true
  | c :: _ => !(isWordChar c)

def prevNonWordOrStart : Option Char → Bool
  | none => true
  | some c => !(isWordChar c)

/-- State machine counting consecutive single-letter tokens (`\b[A-Za-z]\b`)
separated by whitespace runs: state 0 expects a token at the current position,
state 1 is just after a token (a whitespace separator must follow for the chain
to continue), state 2 is inside the separator run. -/
def chGo (st : Nat) : Str → Nat
  | [] => 0
  | c :: cs =>
    match st with
    | 0 => if isAsciiLetter c && headNonWordOrEnd cs then 1 + chGo 1 cs else 0
    | 1 => if isWS c then chGo 2 cs else 0
    | _ =>
      if isWS c then chGo 2 cs
      else if isAsciiLetter c && headNonWordOrEnd cs then 1 + chGo 1 cs else 0

/-- Number of consecutive single-letter tokens, separated by whitespace runs,
starting at the head of `l` (whose left neighbour is known to be non-word). -/
def chainAhead (l : Str) : Nat := chGo 0 l

/-- Pass 4 scanner.  `leftLen` counts the single-letter tokens of the current
chain already seen (connected to the scan position by pure whitespace);
a whitespace run inside a chain of three or more tokens is dropped. -/
def p4go (leftLen : Nat) (prev : Option Char) : Str → Str
  | [] => []
  | c :: cs =>
    if isWS c then
      if 1 ≤ leftLen ∧ 1 ≤ chainAhead (cs.dropWhile isWS) ∧
          3 ≤ leftLen + chainAhead (cs.dropWhile isWS) then
        p4go leftLen (some c) cs
      else c :: p4go leftLen (some c) cs
    else if isAsciiLetter c && prevNonWordOrStart prev && headNonWordOrEnd cs then
      c :: p4go (leftLen + 1) (some c) cs
    else c :: p4go 0 (some c) cs

def isP5Punct (c : Char) : Bool :=
  c == ',' || c == '.' || c == ';' || c == ':' || c == '!' || c == '?'

def headP5Punct : Str → Bool
  | [] => false
  | c :: _ => isP5Punct c

/-- Pass 5 scanner (from the right): a whitespace character directly followed,
after the rest of its run is dropped, by one of `,.;:!?` is removed. -/
def p5 : Str → Str
  | [] => []
  | c :: cs =>
    let r := p5 cs
    if isWS c && headP5Punct r then r else c :: r

/-- `clean_wiki_text` (ML.py line 260). -/
def clean_wiki_text (text : Str) : Str :=
  p5 (p4go 0 none (p3go false (p2go false none (collapseWS (strip text)))))

/-- The cleaned text a document contributes to the report (ML.py line 300). -/
def docContent (d : Doc) : Str := clean_wiki_text (doc_text d)

/-- Strip all trailing `'.'` characters: Python `str.rstrip('.')`. -/
def rstripDots (l : Str) : Str := (l.reverse.dropWhile (fun c => c == '.')).reverse

/-- The quick-definition bullet of one document (ML.py lines 305-313). -/
def defBullet (d : Doc) (content : Str) : Str :=
  match split_sentences content with
  | s :: _ => str "- " ++ docTitle d ++ str ": " ++
      rstripDots (joinWords ((wordsOf (strip s)).take 28)) ++ str "."
  | [] => str "- " ++ docTitle d ++ str ": " ++
      rstripDots (joinWords ((wordsOf content).take 28)) ++ str "."

/-- The grounding-extract bullet of one document (ML.py lines 315-322). -/
def extractBullet (d : Doc) (content : Str) : Str :=
  let sentences := split_sentences content
  let extract_text :=
    match sentences with
    | s0 :: s1 :: _ => strip s0 ++ str " " ++ strip s1
    | [s0] => strip s0
    | [] => content
  str "- " ++ docTitle d ++ str ": " ++
    rstripDots (joinWords ((wordsOf extract_text).take 60)) ++ str "."

/-- The `quick_defs` accumulator of the document loop (documents with empty
cleaned content are skipped by the `continue`). -/
def quick_defs_of (ds : List Doc) : List Str :=
  ds.filterMap (fun d => if (docContent d).isEmpty then none else some (defBullet d (docContent d)))

/-- The `extracts` accumulator of the document loop. -/
def extracts_of (ds : List Doc) : List Str :=
  ds.filterMap (fun d =>
    if (docContent d).isEmpty then none else some (extractBullet d (docContent d)))

def placeholder_bullet : Str := str "- (No extract text available.)"

/-- The `narrative` f-string of `build_report` (ML.py lines 328-351), assembled
from the capped bullet blocks (`defs_block` and `extracts_block` of the source
appear as the block expressions applied at each use site). -/
def assembled_narrative (industry : Str) (docs : List Doc) : Str :=
  str "**Industry report:** " ++ industry ++ str "\n\n" ++
  str "**Overview**\n\n" ++
  str "Grounded Wikipedia topics (top matches): " ++
  joinWith (str ", ") ((docs.take 5).map docTitle) ++
  str ".\n\n" ++
  str "This report summarizes the industry" ++ [rq] ++
  str "s definition, typical structure, and recurring themes as described by those pages.\n\n" ++
  str "**Notable subtopics (quick definitions)**\n\n" ++
  (if (take_bullets_up_to_words (quick_defs_of (docs.take 5)) 130).isEmpty
    then placeholder_bullet
    else take_bullets_up_to_words (quick_defs_of (docs.take 5)) 130) ++ str "\n\n" ++
  str "**Key themes**\n\n" ++
  str "- Scope & definition: What the industry includes, its core activities, and common boundaries.\n" ++
  str "- Value chain: Typical upstream inputs, production/service delivery, and downstream customers/end users.\n" ++
  str "- Enablers: Technologies, infrastructure, standards, and processes that commonly show up across the pages.\n" ++
  str "- Ecosystem: Adjacent sectors, institutions, and public/private actors that influence outcomes.\n\n" ++
  str "**Current dynamics**\n\n" ++
  str "- Demand-side: The use-cases and adoption contexts implied by the descriptions (who uses the outputs and why).\n" ++
  str "- Supply-side: Inputs, operational complexity, scaling constraints, and typical bottlenecks suggested by the coverage.\n" ++
  str "- Differentiation: Where competition tends to focus (cost, performance, reliability, compliance, and distribution).\n\n" ++
  str "**Grounding extracts**\n\n" ++
  (if (take_bullets_up_to_words (extracts_of (docs.take 5)) 220).isEmpty
    then placeholder_bullet
    else take_bullets_up_to_words (extracts_of (docs.take 5)) 220)

/-- `build_report` (ML.py lines 290-359): strip the narrative and hard-truncate
to its first 500 whitespace-separated words when it is longer. -/
def build_report (industry : Str) (docs : List Doc) : Str :=
  let final0 := strip (assembled_narrative industry docs)
  let ws := wordsOf final0
  if 500 < ws.length then joinWords (ws.take 500) else final0

/-! ### Claim C9: idempotence of `clean_wiki_text`.

The proof shows that the output of the cleaning pipeline is in normal form for
every pass: `okWS` describes the whitespace shape left by the initial collapse
(only single, internal `' '` characters), and one redex-freeness predicate per
rewriting pass describes the absence of the pattern that the pass rewrites.
Each pass establishes its own predicate, preserves the earlier ones, and is the
identity on strings satisfying its predicate. -/

theorem headWS_append (l m : Str) :
    headWS (l ++ m) = (if l.isEmpty then headWS m else headWS l) := by
  cases l <;> rfl

theorem strip_eq_self (l : Str) (h1 : headWS l = false) (h2 : headWS l.reverse = false) :
    strip l = l := by
  have hd : l.dropWhile isWS = l := by
    cases l with
    | nil => rfl
    | cons a t =>
      simp only [headWS] at h1
      simp [List.dropWhile_cons, h1]
  have he : l.reverse.dropWhile isWS = l.reverse := by
    cases hrev : l.reverse with
    | nil => rfl
    | cons a t =>
      rw [hrev] at h2
      simp only [headWS] at h2
      simp [List.dropWhile_cons, h2]
  unfold strip stripEnd
  rw [hd, he, List.reverse_reverse]

def prevSolid : Option Char → Bool
  | none => false
  | some c => !(isWS c)

def headSolid : Str → Bool
  | [] => false
  | c :: _ => !(isWS c)

/-- Whitespace normal form relative to a previous character: every whitespace
character is a single `' '` with non-whitespace characters on both sides. -/
def okWSgo (prev : Option Char) : Str → Bool
  | [] => true
  | c :: cs =>
    if isWS c then (c == ' ') && prevSolid prev && headSolid cs && okWSgo (some c) cs
    else okWSgo (some c) cs

def okWS (l : Str) : Bool := okWSgo none l

theorem okWSgo_tail {p : Option Char} {c : Char} {cs : Str}
    (h : okWSgo p (c :: cs) = true) : okWSgo (some c) cs = true := by
  unfold okWSgo at h
  split at h
  · simp only [Bool.and_eq_true] at h
    exact h.2
  · exact h

theorem okWSgo_indep {l : Str} (h : headSolid l = true) (a b : Option Char) :
    okWSgo a l = okWSgo b l := by
  cases l with
  | nil => rfl
  | cons c cs =>
    simp only [headSolid, Bool.not_eq_true'] at h
    simp [okWSgo, h]

theorem okWSgo_ws_parts {p : Option Char} {c : Char} {cs : Str}
    (h : okWSgo p (c :: cs) = true) (hc : isWS c = true) :
    c = ' ' ∧ prevSolid p = true ∧ headSolid cs = true := by
  unfold okWSgo at h
  rw [if_pos hc] at h
  simp only [Bool.and_eq_true, beq_iff_eq] at h
  exact ⟨h.1.1.1, h.1.1.2, h.1.2⟩

theorem okWSgo_head {l : Str} (h : okWSgo none l = true) : headWS l = false := by
  cases l with
  | nil => rfl
  | cons c cs =>
    by_cases hc : isWS c = true
    · have := (okWSgo_ws_parts h hc).2.1
      simp [prevSolid] at this
    · simpa [headWS] using hc

theorem okWSgo_last {l : Str} : ∀ (p : Option Char), okWSgo p l = true →
    headWS l.reverse = false := by
  induction l with
  | nil => intro p _; rfl
  | cons c cs ih =>
    intro p h
    cases cs with
    | nil =>
      by_cases hc : isWS c = true
      · have := (okWSgo_ws_parts h hc).2.2
        simp [headSolid] at this
      · simpa [headWS] using hc
    | cons d t =>
      have htail := okWSgo_tail h
      have hrec := ih (some c) htail
      rw [List.reverse_cons, headWS_append]
      rw [if_neg (by simp)]
      exact hrec

theorem trail_tail {c : Char} {cs : Str} (h : headWS (c :: cs).reverse = false)
    (hne : cs ≠ []) : headWS cs.reverse = false := by
  rw [List.reverse_cons, headWS_append] at h
  rwa [if_neg (by simpa using hne)] at h

/-! The initial strip + whitespace collapse produces `okWS`. -/

theorem dropWhile_head_false (l : Str) (h : headWS l = false) : l.dropWhile isWS = l := by
  cases l with
  | nil => rfl
  | cons c cs =>
    simp only [headWS] at h
    simp [List.dropWhile_cons, h]

theorem headWS_dropWhile (l : Str) : headWS (l.dropWhile isWS) = false := by
  induction l with
  | nil => rfl
  | cons c cs ih =>
    by_cases hc : isWS c = true
    · simpa [List.dropWhile_cons, hc] using ih
    · simp [List.dropWhile_cons, hc, headWS]

theorem stripEnd_decomp (m : Str) : ∃ t, m = stripEnd m ++ t := by
  refine ⟨(m.reverse.takeWhile isWS).reverse, ?_⟩
  unfold stripEnd
  rw [← List.reverse_append, List.takeWhile_append_dropWhile, List.reverse_reverse]

theorem strip_head (l : Str) : headWS (strip l) = false := by
  unfold strip
  obtain ⟨t, ht⟩ := stripEnd_decomp (l.dropWhile isWS)
  have hm : headWS (l.dropWhile isWS) = false := headWS_dropWhile l
  by_cases he : stripEnd (l.dropWhile isWS) = []
  · rw [he]
    rfl
  · rw [ht, headWS_append, if_neg (by simpa using he)] at hm
    exact hm

theorem strip_last (l : Str) : headWS (strip l).reverse = false := by
  unfold strip stripEnd
  rw [List.reverse_reverse]
  exact headWS_dropWhile _

/-- The whitespace collapse yields `okWS` text, given no leading/trailing
whitespace (as `strip` guarantees). -/
theorem collapse_ok (t : Str) : ∀ (p : Option Char),
    (prevSolid p = true ∨ headWS t = false) → headWS t.reverse = false →
    okWSgo p (collapseWS t) = true := by
  induction t with
  | nil => intro p _ _; rfl
  | cons c cs ih =>
    intro p h1 h2
    by_cases hc : isWS c = true
    · have hp : prevSolid p = true := by
        rcases h1 with h1 | h1
        · exact h1
        · simp [headWS, hc] at h1
      cases cs with
      | nil =>
        exfalso
        simp [headWS, hc] at h2
      | cons d u =>
        have h2' : headWS (d :: u).reverse = false := trail_tail h2 (by simp)
        by_cases hd : headWS (d :: u) = true
        · rw [collapseWS, if_pos hc, if_pos hd]
          exact ih p (Or.inl hp) h2'
        · rw [collapseWS, if_pos hc, if_neg hd]
          have hrec : okWSgo (some ' ') (collapseWS (d :: u)) = true :=
            ih (some ' ') (Or.inr (by simpa using hd)) h2'
          have hds : headSolid (collapseWS (d :: u)) = true := by
            simp only [headWS] at hd
            rw [collapseWS, if_neg hd]
            simpa [headSolid] using hd
          rw [okWSgo, if_pos (by decide)]
          simp [prevSolid] at hp ⊢
          exact ⟨⟨hp, hds⟩, hrec⟩
    · rw [collapseWS, if_neg hc]
      have hrec : okWSgo (some c) (collapseWS cs) = true := by
        cases cs with
        | nil => rfl
        | cons d u =>
          exact ih (some c) (Or.inl (by simp [prevSolid, hc])) (trail_tail h2 (by simp))
      rw [okWSgo, if_neg hc]
      exact hrec

theorem p1_ok (x : Str) : okWS (collapseWS (strip x)) = true :=
  collapse_ok (strip x) none (Or.inr (strip_head x)) (strip_last x)

/-! `okWS` text is untouched by strip and collapse. -/

theorem collapse_id (l : Str) : ∀ (p : Option Char), okWSgo p l = true →
    collapseWS l = l := by
  induction l with
  | nil => intro p _; rfl
  | cons c cs ih =>
    intro p h
    have htail := okWSgo_tail h
    by_cases hc : isWS c = true
    · obtain ⟨hsp, _, hhs⟩ := okWSgo_ws_parts h hc
      have hhw : headWS cs = false := by
        cases cs with
        | nil => rfl
        | cons d u => simpa [headSolid, headWS, Bool.not_eq_true'] using hhs
      rw [collapseWS, if_pos hc, if_neg (by simp [hhw]), hsp]
      rw [ih (some c) htail]
    · rw [collapseWS, if_neg hc, ih (some c) htail]

theorem okWS_p1_id (l : Str) (h : okWS l = true) : collapseWS (strip l) = l := by
  have hs : strip l = l :=
    strip_eq_self l (okWSgo_head h) (okWSgo_last none h)
  rw [hs, collapse_id l none h]

/-! Every rewriting pass deletes only whitespace characters and so preserves
`okWS`. -/

theorem p2go_cons_solid (a : Bool) (b : Option Char) (d : Char) (t : Str)
    (hd : isWS d = false) : p2go a b (d :: t) = d :: p2go (prevDigit b) (some d) t := by
  rw [p2go]
  simp [hd]

theorem p3go_cons_solid (pd : Bool) (d : Char) (t : Str) (hd : isWS d = false) :
    p3go pd (d :: t) = d :: p3go d.isDigit t := by
  rw [p3go]
  simp [hd]

theorem p5_cons_solid (d : Char) (t : Str) (hd : isWS d = false) :
    p5 (d :: t) = d :: p5 t := by
  rw [p5]
  simp [hd]

theorem headSolid_p2go (a : Bool) (b : Option Char) {cs : Str}
    (h : headSolid cs = true) : headSolid (p2go a b cs) = true := by
  cases cs with
  | nil => cases h
  | cons d t =>
    simp only [headSolid, Bool.not_eq_true'] at h
    rw [p2go_cons_solid a b d t h]
    simpa [headSolid]

theorem headSolid_p3go (pd : Bool) {cs : Str}
    (h : headSolid cs = true) : headSolid (p3go pd cs) = true := by
  cases cs with
  | nil => cases h
  | cons d t =>
    simp only [headSolid, Bool.not_eq_true'] at h
    rw [p3go_cons_solid pd d t h]
    simpa [headSolid]

theorem headSolid_p4go (L : Nat) (p : Option Char) {cs : Str}
    (h : headSolid cs = true) : headSolid (p4go L p cs) = true := by
  cases cs with
  | nil => cases h
  | cons d t =>
    simp only [headSolid, Bool.not_eq_true'] at h
    rw [p4go, if_neg (by simp [h])]
    split <;> simpa [headSolid]

theorem headSolid_p5 {cs : Str} (h : headSolid cs = true) :
    headSolid (p5 cs) = true := by
  cases cs with
  | nil => cases h
  | cons d t =>
    simp only [headSolid, Bool.not_eq_true'] at h
    rw [p5_cons_solid d t h]
    simpa [headSolid]

theorem okWS_p2go : ∀ (l : Str) (a : Bool) (b q : Option Char),
    okWSgo q l = true → okWSgo q (p2go a b l) = true := by
  intro l
  induction l with
  | nil => intro a b q _; rfl
  | cons c cs ih =>
    intro a b q h
    have htail := okWSgo_tail h
    by_cases hc : isWS c = true
    · obtain ⟨hsp, hps, hhs⟩ := okWSgo_ws_parts h hc
      have hqcs : okWSgo q cs = true := by
        rw [okWSgo_indep hhs q (some c)]
        exact htail
      rw [p2go]
      split
      · exact ih a b q hqcs
      · split
        · exact ih a b q hqcs
        · rw [okWSgo, if_pos hc]
          simp only [Bool.and_eq_true, beq_iff_eq]
          exact ⟨⟨⟨hsp, hps⟩, headSolid_p2go _ _ hhs⟩, ih _ _ (some c) htail⟩
    · rw [p2go_cons_solid a b c cs (by simpa using hc), okWSgo, if_neg hc]
      exact ih _ _ (some c) htail

theorem okWS_p3go : ∀ (l : Str) (pd : Bool) (q : Option Char),
    okWSgo q l = true → okWSgo q (p3go pd l) = true := by
  intro l
  induction l with
  | nil => intro pd q _; rfl
  | cons c cs ih =>
    intro pd q h
    have htail := okWSgo_tail h
    by_cases hc : isWS c = true
    · obtain ⟨hsp, hps, hhs⟩ := okWSgo_ws_parts h hc
      have hqcs : okWSgo q cs = true := by
        rw [okWSgo_indep hhs q (some c)]
        exact htail
      rw [p3go]
      split
      · exact ih pd q hqcs
      · rw [okWSgo, if_pos hc]
        simp only [Bool.and_eq_true, beq_iff_eq]
        exact ⟨⟨⟨hsp, hps⟩, headSolid_p3go _ hhs⟩, ih _ (some c) htail⟩
    · rw [p3go_cons_solid pd c cs (by simpa using hc), okWSgo, if_neg hc]
      exact ih _ (some c) htail

theorem okWS_p4go : ∀ (l : Str) (L : Nat) (p q : Option Char),
    okWSgo q l = true → okWSgo q (p4go L p l) = true := by
  intro l
  induction l with
  | nil => intro L p q _; rfl
  | cons c cs ih =>
    intro L p q h
    have htail := okWSgo_tail h
    by_cases hc : isWS c = true
    · obtain ⟨hsp, hps, hhs⟩ := okWSgo_ws_parts h hc
      have hqcs : okWSgo q cs = true := by
        rw [okWSgo_indep hhs q (some c)]
        exact htail
      rw [p4go, if_pos hc]
      split
      · exact ih L (some c) q hqcs
      · rw [okWSgo, if_pos hc]
        simp only [Bool.and_eq_true, beq_iff_eq]
        exact ⟨⟨⟨hsp, hps⟩, headSolid_p4go _ _ hhs⟩, ih _ (some c) (some c) htail⟩
    · rw [p4go, if_neg hc]
      split
      · rw [okWSgo, if_neg hc]
        exact ih _ (some c) (some c) htail
      · rw [okWSgo, if_neg hc]
        exact ih _ (some c) (some c) htail

theorem okWS_p5 : ∀ (l : Str) (q : Option Char),
    okWSgo q l = true → okWSgo q (p5 l) = true := by
  intro l
  induction l with
  | nil => intro q _; rfl
  | cons c cs ih =>
    intro q h
    have htail := okWSgo_tail h
    by_cases hc : isWS c = true
    · obtain ⟨hsp, hps, hhs⟩ := okWSgo_ws_parts h hc
      have hqcs : okWSgo q cs = true := by
        rw [okWSgo_indep hhs q (some c)]
        exact htail
      simp only [p5]
      split
      · exact ih q hqcs
      · rw [okWSgo, if_pos hc]
        simp only [Bool.and_eq_true, beq_iff_eq]
        exact ⟨⟨⟨hsp, hps⟩, headSolid_p5 hhs⟩, ih (some c) htail⟩
    · rw [p5_cons_solid c cs (by simpa using hc), okWSgo, if_neg hc]
      exact ih (some c) htail

/-! Pass 3 redex-freeness: no digit, whitespace, digit window. -/

def okP3go (prev : Option Char) : Str → Bool
  | [] => true
  | c :: cs => !(prevDigit prev && isWS c && headDigit cs) && okP3go (some c) cs

theorem okP3go_tail {p : Option Char} {c : Char} {cs : Str}
    (h : okP3go p (c :: cs) = true) : okP3go (some c) cs = true := by
  simp only [okP3go, Bool.and_eq_true] at h
  exact h.2

theorem okP3go_check {p : Option Char} {c : Char} {cs : Str}
    (h : okP3go p (c :: cs) = true) :
    (prevDigit p && isWS c && headDigit cs) = false := by
  simp only [okP3go, Bool.and_eq_true, Bool.not_eq_true'] at h
  simpa using h.1

theorem okP3go_indep {l : Str} (h : headSolid l = true) (a b : Option Char) :
    okP3go a l = okP3go b l := by
  cases l with
  | nil => rfl
  | cons c cs =>
    simp only [headSolid, Bool.not_eq_true'] at h
    simp [okP3go, h]

theorem ws_not_digit {c : Char} (h : isWS c = true) : c.isDigit = false := by
  simp only [isWS, Bool.or_eq_true, beq_iff_eq] at h
  rcases h with ((((h | h) | h) | h) | h) | h <;> subst h <;> decide

theorem headSolid_headWS {cs : Str} (h : headSolid cs = true) : headWS cs = false := by
  cases cs with
  | nil => rfl
  | cons d t => simpa [headSolid, headWS, Bool.not_eq_true'] using h

theorem digit_not_ws {c : Char} (h : c.isDigit = true) : isWS c = false := by
  by_cases hw : isWS c = true
  · rw [ws_not_digit hw] at h
    cases h
  · simpa using hw

theorem headDigit_p3go_false (cs : Str) : headDigit (p3go false cs) = headDigit cs := by
  cases cs with
  | nil => rfl
  | cons d t =>
    rw [p3go]
    simp [headDigit]

theorem p3_est : ∀ (l : Str) (pd : Bool) (q : Option Char), prevDigit q = pd →
    okP3go q (p3go pd l) = true := by
  intro l
  induction l with
  | nil => intro pd q _; rfl
  | cons c cs ih =>
    intro pd q hq
    rw [p3go]
    split
    · exact ih pd q hq
    · rename_i hcond
      simp only [okP3go, Bool.and_eq_true, Bool.not_eq_true', Bool.and_eq_false_iff]
      refine ⟨?_, ih c.isDigit (some c) rfl⟩
      by_cases hpq : prevDigit q = true
      · by_cases hws : isWS c = true
        · right
          have hdig : headDigit (p3go c.isDigit cs) = headDigit cs := by
            rw [ws_not_digit hws]
            exact headDigit_p3go_false cs
          rw [hdig]
          by_cases hd : headDigit cs = true
          · exfalso
            apply hcond
            have hdw : cs.dropWhile isWS = cs := by
              apply dropWhile_head_false
              cases cs with
              | nil => rfl
              | cons d t =>
                simp only [headDigit] at hd
                simp [headWS, digit_not_ws hd]
            have hpd : pd = true := hq ▸ hpq
            rw [hws, hpd, hdw, hd]
            rfl
          · simpa using hd
        · left
          simp [Bool.and_eq_false_iff, hws]
      · left
        simp [Bool.and_eq_false_iff, hpq]

theorem headDigit_p4go (L : Nat) (p : Option Char) {cs : Str}
    (h : headSolid cs = true) : headDigit (p4go L p cs) = headDigit cs := by
  cases cs with
  | nil => cases h
  | cons d t =>
    simp only [headSolid, Bool.not_eq_true'] at h
    rw [p4go, if_neg (by simp [h])]
    split <;> simp [headDigit]

theorem headDigit_p5 {cs : Str} (h : headSolid cs = true) :
    headDigit (p5 cs) = headDigit cs := by
  cases cs with
  | nil => cases h
  | cons d t =>
    simp only [headSolid, Bool.not_eq_true'] at h
    rw [p5_cons_solid d t h]
    simp [headDigit]

theorem okP3_p4go : ∀ (l : Str) (L : Nat) (p q : Option Char),
    okWSgo q l = true → okP3go q l = true → okP3go q (p4go L p l) = true := by
  intro l
  induction l with
  | nil => intro L p q _ _; rfl
  | cons c cs ih =>
    intro L p q hw h3
    have hwt := okWSgo_tail hw
    have h3t := okP3go_tail h3
    by_cases hc : isWS c = true
    · obtain ⟨_, _, hhs⟩ := okWSgo_ws_parts hw hc
      have hwq : okWSgo q cs = true := by
        rw [okWSgo_indep hhs q (some c)]
        exact hwt
      have h3q : okP3go q cs = true := by
        rw [okP3go_indep hhs q (some c)]
        exact h3t
      rw [p4go, if_pos hc]
      split
      · exact ih L (some c) q hwq h3q
      · simp only [okP3go, Bool.and_eq_true]
        refine ⟨?_, ih L (some c) (some c) hwt h3t⟩
        rw [headDigit_p4go L (some c) hhs]
        simp only [Bool.not_eq_true']
        exact okP3go_check h3
    · have hcf : isWS c = false := by simpa using hc
      rw [p4go, if_neg hc]
      split
      · simp only [okP3go, Bool.and_eq_true]
        exact ⟨by simp [hcf], ih _ (some c) (some c) hwt h3t⟩
      · simp only [okP3go, Bool.and_eq_true]
        exact ⟨by simp [hcf], ih _ (some c) (some c) hwt h3t⟩

theorem okP3_p5 : ∀ (l : Str) (q : Option Char),
    okWSgo q l = true → okP3go q l = true → okP3go q (p5 l) = true := by
  intro l
  induction l with
  | nil => intro q _ _; rfl
  | cons c cs ih =>
    intro q hw h3
    have hwt := okWSgo_tail hw
    have h3t := okP3go_tail h3
    by_cases hc : isWS c = true
    · obtain ⟨_, _, hhs⟩ := okWSgo_ws_parts hw hc
      have hwq : okWSgo q cs = true := by
        rw [okWSgo_indep hhs q (some c)]
        exact hwt
      have h3q : okP3go q cs = true := by
        rw [okP3go_indep hhs q (some c)]
        exact h3t
      simp only [p5]
      split
      · exact ih q hwq h3q
      · simp only [okP3go, Bool.and_eq_true]
        refine ⟨?_, ih (some c) hwt h3t⟩
        rw [headDigit_p5 hhs]
        simp only [Bool.not_eq_true']
        exact okP3go_check h3
    · have hcf : isWS c = false := by simpa using hc
      rw [p5_cons_solid c cs hcf]
      simp only [okP3go, Bool.and_eq_true]
      exact ⟨by simp [hcf], ih (some c) hwt h3t⟩

theorem p3_id : ∀ (l : Str) (q : Option Char),
    okWSgo q l = true → okP3go q l = true → p3go (prevDigit q) l = l := by
  intro l
  induction l with
  | nil => intro q _ _; rfl
  | cons c cs ih =>
    intro q hw h3
    have hwt := okWSgo_tail hw
    have h3t := okP3go_tail h3
    by_cases hc : isWS c = true
    · obtain ⟨_, _, hhs⟩ := okWSgo_ws_parts hw hc
      have hdw : cs.dropWhile isWS = cs := dropWhile_head_false cs (headSolid_headWS hhs)
      have hchk := okP3go_check h3
      have hcond : (isWS c && prevDigit q && headDigit (cs.dropWhile isWS)) = false := by
        rw [hdw, hc]
        cases hpq : prevDigit q <;> cases hhd : headDigit cs <;> simp_all
      rw [p3go, if_neg (by simp [hcond])]
      exact congrArg (c :: ·) (ih (some c) hwt h3t)
    · have hcf : isWS c = false := by simpa using hc
      rw [p3go_cons_solid (prevDigit q) c cs hcf]
      exact congrArg (c :: ·) (ih (some c) hwt h3t)

/-! Pass 5 redex-freeness: no whitespace directly before `,.;:!?`. -/

def okP5 : Str → Bool
  | [] => true
  | c :: cs => !(isWS c && headP5Punct cs) && okP5 cs

theorem okP5_tail {c : Char} {cs : Str} (h : okP5 (c :: cs) = true) : okP5 cs = true := by
  simp only [okP5, Bool.and_eq_true] at h
  exact h.2

theorem okP5_check {c : Char} {cs : Str} (h : okP5 (c :: cs) = true) :
    (isWS c && headP5Punct cs) = false := by
  simp only [okP5, Bool.and_eq_true, Bool.not_eq_true'] at h
  exact h.1

theorem p5_est : ∀ (l : Str), okP5 (p5 l) = true := by
  intro l
  induction l with
  | nil => rfl
  | cons c cs ih =>
    simp only [p5]
    split
    · exact ih
    · rename_i hcond
      simp only [okP5, Bool.and_eq_true, Bool.not_eq_true']
      exact ⟨by simpa using hcond, ih⟩

theorem p5_id : ∀ (l : Str), okP5 l = true → p5 l = l := by
  intro l
  induction l with
  | nil => intro _; rfl
  | cons c cs ih =>
    intro h
    have ht := ih (okP5_tail h)
    simp only [p5, ht]
    rw [if_neg (by simp [okP5_check h])]

/-! Character-class facts used by the pass-2 and pass-4 normal forms. -/

theorem ws_not_word {c : Char} (h : isWS c = true) : isWordChar c = false := by
  simp only [isWS, Bool.or_eq_true, beq_iff_eq] at h
  rcases h with ((((h | h) | h) | h) | h) | h <;> subst h <;> decide

theorem ws_not_letter {c : Char} (h : isWS c = true) : isAsciiLetter c = false := by
  simp only [isWS, Bool.or_eq_true, beq_iff_eq] at h
  rcases h with ((((h | h) | h) | h) | h) | h <;> subst h <;> decide

theorem letter_not_ws {c : Char} (h : isAsciiLetter c = true) : isWS c = false := by
  by_cases h1 : isWS c = true
  · rw [ws_not_letter h1] at h
    cases h
  · simpa using h1

theorem numpunct_not_digit {c : Char} (h : isNumPunct c = true) : c.isDigit = false := by
  simp only [isNumPunct, Bool.or_eq_true, beq_iff_eq] at h
  rcases h with h | h <;> subst h <;> decide

theorem digit_not_numpunct {c : Char} (h : c.isDigit = true) : isNumPunct c = false := by
  by_cases h1 : isNumPunct c = true
  · rw [numpunct_not_digit h1] at h
    cases h
  · simpa using h1

theorem letter_not_numpunct {c : Char} (h : isAsciiLetter c = true) : isNumPunct c = false := by
  by_cases h1 : isNumPunct c = true
  · exfalso
    simp only [isNumPunct, Bool.or_eq_true, beq_iff_eq] at h1
    rcases h1 with h1 | h1 <;> subst h1 <;> exact absurd h (by decide)
  · simpa using h1

theorem p5punct_not_digit {c : Char} (h : isP5Punct c = true) : c.isDigit = false := by
  simp only [isP5Punct, Bool.or_eq_true, beq_iff_eq] at h
  rcases h with ((((h | h) | h) | h) | h) | h <;> subst h <;> decide

def isWSopt : Option Char → Bool
  | none => false
  | some c => isWS c

def prevLetter : Option Char → Bool
  | none => false
  | some c => isAsciiLetter c

def headLetter : Str → Bool
  | [] => false
  | c :: _ => isAsciiLetter c

def isP5opt : Option Char → Bool
  | none => false
  | some c => isP5Punct c

/-! Unfolding equations for the single-letter-chain counter at literal states. -/

theorem chGo0_cons (c : Char) (cs : Str) :
    chGo 0 (c :: cs) =
      if isAsciiLetter c && headNonWordOrEnd cs then 1 + chGo 1 cs else 0 := rfl

theorem chGo1_cons (c : Char) (cs : Str) :
    chGo 1 (c :: cs) = if isWS c then chGo 2 cs else 0 := rfl

theorem chGo2_cons (c : Char) (cs : Str) :
    chGo 2 (c :: cs) =
      if isWS c then chGo 2 cs
      else if isAsciiLetter c && headNonWordOrEnd cs then 1 + chGo 1 cs else 0 := rfl

theorem chGo1_noWS {u : Str} (h : headWS u = false) : chGo 1 u = 0 := by
  cases u with
  | nil => rfl
  | cons c cs =>
    simp only [headWS] at h
    simp [chGo1_cons, h]

theorem chGo02 {u : Str} (h : headWS u = false) : chGo 0 u = chGo 2 u := by
  cases u with
  | nil => rfl
  | cons c cs =>
    simp only [headWS] at h
    simp [chGo0_cons, chGo2_cons, h]

/-! The rewriting passes only ever delete characters, so a non-word head (or
the end of the string) stays non-word after a pass. -/

theorem hnwe_p4go {t : Str} (L : Nat) (p : Option Char)
    (h : headNonWordOrEnd (p4go L p t) = true) : headNonWordOrEnd t = true := by
  cases t with
  | nil => rfl
  | cons d u =>
    by_cases hw : isWS d = true
    · simp [headNonWordOrEnd, ws_not_word hw]
    · rw [p4go, if_neg hw] at h
      revert h
      split <;> (intro h; exact h)

theorem hnwe_p5 {t : Str} (h : headNonWordOrEnd (p5 t) = true) :
    headNonWordOrEnd t = true := by
  cases t with
  | nil => rfl
  | cons d u =>
    by_cases hw : isWS d = true
    · simp [headNonWordOrEnd, ws_not_word hw]
    · rw [p5_cons_solid d u (by simpa using hw)] at h
      exact h

theorem headDigit_p2go (A : Bool) (B : Option Char) {u : Str} (h : headSolid u = true) :
    headDigit (p2go A B u) = headDigit u := by
  cases u with
  | nil => cases h
  | cons d t =>
    simp only [headSolid, Bool.not_eq_true'] at h
    rw [p2go_cons_solid A B d t h]
    simp [headDigit]

theorem headDigit_p3go_solid (X : Bool) {u : Str} (h : headSolid u = true) :
    headDigit (p3go X u) = headDigit u := by
  cases u with
  | nil => cases h
  | cons d t =>
    simp only [headSolid, Bool.not_eq_true'] at h
    rw [p3go_cons_solid X d t h]
    simp [headDigit]

theorem p2sm_ws {c : Char} (cs : Str) (h : isWS c = true) :
    p2SpacedMatch (c :: cs) = p2SpacedMatch cs := by
  unfold p2SpacedMatch
  rw [List.dropWhile_cons, if_pos (by simp [h])]

theorem p2sm_cons_solid {s : Char} (X : Str) (h : isWS s = false) :
    p2SpacedMatch (s :: X) = (isNumPunct s && headDigit (X.dropWhile isWS)) := by
  unfold p2SpacedMatch
  rw [List.dropWhile_cons, if_neg (by simp [h])]

/-! Deleting whitespace can only shorten a single-letter-token chain. -/

theorem chGo_p4go_le : ∀ (t : Str) (L : Nat) (p : Option Char), okWSgo p t = true →
    chGo 2 (p4go L p t) ≤ chGo 2 t ∧ chGo 1 (p4go L p t) ≤ chGo 1 t := by
  intro t
  induction t with
  | nil => intro L p _; exact ⟨Nat.le_refl 0, Nat.le_refl 0⟩
  | cons c cs ih =>
    intro L p hw
    have hwt := okWSgo_tail hw
    by_cases hc : isWS c = true
    · obtain ⟨_, _, hhs⟩ := okWSgo_ws_parts hw hc
      rw [p4go, if_pos hc]
      have hc2 : chGo 2 (c :: cs) = chGo 2 cs := by rw [chGo2_cons, if_pos hc]
      have hc1 : chGo 1 (c :: cs) = chGo 2 cs := by rw [chGo1_cons, if_pos hc]
      split
      · have hout : headSolid (p4go L (some c) cs) = true := headSolid_p4go L (some c) hhs
        constructor
        · rw [hc2]
          exact (ih L (some c) hwt).1
        · rw [hc1, chGo1_noWS (headSolid_headWS hout)]
          exact Nat.zero_le _
      · constructor
        · rw [chGo2_cons, if_pos hc, hc2]
          exact (ih L (some c) hwt).1
        · rw [chGo1_cons, if_pos hc, hc1]
          exact (ih L (some c) hwt).1
    · have hcf : isWS c = false := by simpa using hc
      rw [p4go, if_neg hc]
      have key : ∀ (M : Nat), chGo 2 (c :: p4go M (some c) cs) ≤ chGo 2 (c :: cs) ∧
          chGo 1 (c :: p4go M (some c) cs) ≤ chGo 1 (c :: cs) := by
        intro M
        constructor
        · rw [chGo2_cons, chGo2_cons, if_neg hc, if_neg hc]
          by_cases hcond : (isAsciiLetter c && headNonWordOrEnd (p4go M (some c) cs)) = true
          · simp only [Bool.and_eq_true] at hcond
            have hnw : headNonWordOrEnd cs = true := hnwe_p4go M (some c) hcond.2
            rw [if_pos (by simp [hcond.1, hcond.2]), if_pos (by simp [hcond.1, hnw])]
            exact Nat.add_le_add_left (ih M (some c) hwt).2 1
          · rw [if_neg hcond]
            exact Nat.zero_le _
        · rw [chGo1_cons, chGo1_cons, if_neg hc, if_neg hc]
      split
      · exact key (L + 1)
      · exact key 0

theorem chGo_p5_le : ∀ (t : Str) (p : Option Char), okWSgo p t = true →
    chGo 2 (p5 t) ≤ chGo 2 t ∧ chGo 1 (p5 t) ≤ chGo 1 t := by
  intro t
  induction t with
  | nil => intro p _; exact ⟨Nat.le_refl 0, Nat.le_refl 0⟩
  | cons c cs ih =>
    intro p hw
    have hwt := okWSgo_tail hw
    by_cases hc : isWS c = true
    · obtain ⟨_, _, hhs⟩ := okWSgo_ws_parts hw hc
      simp only [p5]
      have hc2 : chGo 2 (c :: cs) = chGo 2 cs := by rw [chGo2_cons, if_pos hc]
      have hc1 : chGo 1 (c :: cs) = chGo 2 cs := by rw [chGo1_cons, if_pos hc]
      split
      · have hout : headSolid (p5 cs) = true := headSolid_p5 hhs
        constructor
        · rw [hc2]
          exact (ih (some c) hwt).1
        · rw [hc1, chGo1_noWS (headSolid_headWS hout)]
          exact Nat.zero_le _
      · constructor
        · rw [chGo2_cons, if_pos hc, hc2]
          exact (ih (some c) hwt).1
        · rw [chGo1_cons, if_pos hc, hc1]
          exact (ih (some c) hwt).1
    · have hcf : isWS c = false := by simpa using hc
      rw [p5_cons_solid c cs hcf]
      constructor
      · rw [chGo2_cons, chGo2_cons, if_neg hc, if_neg hc]
        by_cases hcond : (isAsciiLetter c && headNonWordOrEnd (p5 cs)) = true
        · simp only [Bool.and_eq_true] at hcond
          have hnw : headNonWordOrEnd cs = true := hnwe_p5 hcond.2
          rw [if_pos (by simp [hcond.1, hcond.2]), if_pos (by simp [hcond.1, hnw])]
          exact Nat.add_le_add_left (ih (some c) hwt).2 1
        · rw [if_neg hcond]
          exact Nat.zero_le _
      · rw [chGo1_cons, chGo1_cons, if_neg hc, if_neg hc]

/-! The first digit (after whitespace) visible from a position survives every
pass unchanged, and so does the pass-2 lookahead match. -/

theorem hd_dw_p2go : ∀ (t : Str) (A : Bool) (B b : Option Char), okWSgo b t = true →
    headDigit ((p2go A B t).dropWhile isWS) = headDigit (t.dropWhile isWS) := by
  intro t A B b hw
  cases t with
  | nil => rfl
  | cons d u =>
    by_cases hd : isWS d = true
    · obtain ⟨_, _, hhs⟩ := okWSgo_ws_parts hw hd
      have hdwu : u.dropWhile isWS = u := dropWhile_head_false u (headSolid_headWS hhs)
      have hrhs : (d :: u).dropWhile isWS = u := by
        rw [List.dropWhile_cons, if_pos (by simp [hd]), hdwu]
      rw [hrhs]
      have hdel : (p2go A B u).dropWhile isWS = p2go A B u :=
        dropWhile_head_false _ (headSolid_headWS (headSolid_p2go A B hhs))
      rw [p2go]
      split
      · rw [hdel, headDigit_p2go A B hhs]
      · split
        · rw [hdel, headDigit_p2go A B hhs]
        · have hkeep : (p2go (prevDigit B) (some d) u).dropWhile isWS =
              p2go (prevDigit B) (some d) u :=
            dropWhile_head_false _
              (headSolid_headWS (headSolid_p2go (prevDigit B) (some d) hhs))
          rw [List.dropWhile_cons, if_pos (by simp [hd]), hkeep,
            headDigit_p2go (prevDigit B) (some d) hhs]
    · have hdf : isWS d = false := by simpa using hd
      rw [p2go_cons_solid A B d u hdf, List.dropWhile_cons, List.dropWhile_cons,
        if_neg (by simp [hdf]), if_neg (by simp [hdf])]
      simp [headDigit]

theorem hd_dw_p3go : ∀ (t : Str) (X : Bool) (b : Option Char), okWSgo b t = true →
    headDigit ((p3go X t).dropWhile isWS) = headDigit (t.dropWhile isWS) := by
  intro t X b hw
  cases t with
  | nil => rfl
  | cons d u =>
    by_cases hd : isWS d = true
    · obtain ⟨_, _, hhs⟩ := okWSgo_ws_parts hw hd
      have hdwu : u.dropWhile isWS = u := dropWhile_head_false u (headSolid_headWS hhs)
      have hrhs : (d :: u).dropWhile isWS = u := by
        rw [List.dropWhile_cons, if_pos (by simp [hd]), hdwu]
      rw [hrhs, p3go]
      split
      · rw [dropWhile_head_false _ (headSolid_headWS (headSolid_p3go X hhs)),
          headDigit_p3go_solid X hhs]
      · rw [List.dropWhile_cons, if_pos (by simp [hd]),
          dropWhile_head_false _ (headSolid_headWS (headSolid_p3go d.isDigit hhs)),
          headDigit_p3go_solid d.isDigit hhs]
    · have hdf : isWS d = false := by simpa using hd
      rw [p3go_cons_solid X d u hdf, List.dropWhile_cons, List.dropWhile_cons,
        if_neg (by simp [hdf]), if_neg (by simp [hdf])]
      simp [headDigit]

theorem hd_dw_p4go : ∀ (t : Str) (L : Nat) (p b : Option Char), okWSgo b t = true →
    headDigit ((p4go L p t).dropWhile isWS) = headDigit (t.dropWhile isWS) := by
  intro t L p b hw
  cases t with
  | nil => rfl
  | cons d u =>
    by_cases hd : isWS d = true
    · obtain ⟨_, _, hhs⟩ := okWSgo_ws_parts hw hd
      have hdwu : u.dropWhile isWS = u := dropWhile_head_false u (headSolid_headWS hhs)
      have hrhs : (d :: u).dropWhile isWS = u := by
        rw [List.dropWhile_cons, if_pos (by simp [hd]), hdwu]
      rw [hrhs, p4go, if_pos hd]
      split
      · rw [dropWhile_head_false _ (headSolid_headWS (headSolid_p4go L (some d) hhs)),
          headDigit_p4go L (some d) hhs]
      · rw [List.dropWhile_cons, if_pos (by simp [hd]),
          dropWhile_head_false _ (headSolid_headWS (headSolid_p4go L (some d) hhs)),
          headDigit_p4go L (some d) hhs]
    · rw [p4go, if_neg hd]
      have hdf : isWS d = false := by simpa using hd
      split <;>
        (rw [List.dropWhile_cons, List.dropWhile_cons, if_neg (by simp [hdf]),
          if_neg (by simp [hdf])]
         simp [headDigit])

theorem hd_dw_p5 : ∀ (t : Str) (b : Option Char), okWSgo b t = true →
    headDigit ((p5 t).dropWhile isWS) = headDigit (t.dropWhile isWS) := by
  intro t b hw
  cases t with
  | nil => rfl
  | cons d u =>
    by_cases hd : isWS d = true
    · obtain ⟨_, _, hhs⟩ := okWSgo_ws_parts hw hd
      have hdwu : u.dropWhile isWS = u := dropWhile_head_false u (headSolid_headWS hhs)
      have hrhs : (d :: u).dropWhile isWS = u := by
        rw [List.dropWhile_cons, if_pos (by simp [hd]), hdwu]
      rw [hrhs]
      simp only [p5]
      split
      · rw [dropWhile_head_false _ (headSolid_headWS (headSolid_p5 hhs)),
          headDigit_p5 hhs]
      · rw [List.dropWhile_cons, if_pos (by simp [hd]),
          dropWhile_head_false _ (headSolid_headWS (headSolid_p5 hhs)),
          headDigit_p5 hhs]
    · have hdf : isWS d = false := by simpa using hd
      rw [p5_cons_solid d u hdf, List.dropWhile_cons, List.dropWhile_cons,
        if_neg (by simp [hdf]), if_neg (by simp [hdf])]
      simp [headDigit]

theorem p2sm_p2go (cs : Str) (A : Bool) (B b : Option Char)
    (hw : okWSgo b cs = true) (hhs : headSolid cs = true) :
    p2SpacedMatch (p2go A B cs) = p2SpacedMatch cs := by
  cases cs with
  | nil => cases hhs
  | cons s t =>
    have hsf : isWS s = false := by
      simpa [headSolid, Bool.not_eq_true'] using hhs
    rw [p2go_cons_solid A B s t hsf, p2sm_cons_solid _ hsf, p2sm_cons_solid _ hsf,
      hd_dw_p2go t (prevDigit B) (some s) (some s) (okWSgo_tail hw)]

theorem p2sm_p3go (cs : Str) (X : Bool) (b : Option Char)
    (hw : okWSgo b cs = true) (hhs : headSolid cs = true) :
    p2SpacedMatch (p3go X cs) = p2SpacedMatch cs := by
  cases cs with
  | nil => cases hhs
  | cons s t =>
    have hsf : isWS s = false := by
      simpa [headSolid, Bool.not_eq_true'] using hhs
    rw [p3go_cons_solid X s t hsf, p2sm_cons_solid _ hsf, p2sm_cons_solid _ hsf,
      hd_dw_p3go t s.isDigit (some s) (okWSgo_tail hw)]

theorem p2sm_p4go (cs : Str) (L : Nat) (p b : Option Char)
    (hw : okWSgo b cs = true) (hhs : headSolid cs = true) :
    p2SpacedMatch (p4go L p cs) = p2SpacedMatch cs := by
  cases cs with
  | nil => cases hhs
  | cons s t =>
    have hsf : isWS s = false := by
      simpa [headSolid, Bool.not_eq_true'] using hhs
    rw [p4go, if_neg (by simp [hsf])]
    split <;>
      rw [p2sm_cons_solid _ hsf, p2sm_cons_solid _ hsf,
        hd_dw_p4go t _ (some s) (some s) (okWSgo_tail hw)]

theorem p2sm_p5 (cs : Str) (b : Option Char)
    (hw : okWSgo b cs = true) (hhs : headSolid cs = true) :
    p2SpacedMatch (p5 cs) = p2SpacedMatch cs := by
  cases cs with
  | nil => cases hhs
  | cons s t =>
    have hsf : isWS s = false := by
      simpa [headSolid, Bool.not_eq_true'] using hhs
    rw [p5_cons_solid s t hsf, p2sm_cons_solid _ hsf, p2sm_cons_solid _ hsf,
      hd_dw_p5 t (some s) (okWSgo_tail hw)]

/-! Pass 4 redex-freeness: scanning with the chain counter never reaches a
deletable whitespace run. -/

def okP4go (L : Nat) (prev : Option Char) : Str → Bool
  | [] => true
  | c :: cs =>
    if isWS c then
      if 1 ≤ L ∧ 1 ≤ chainAhead (cs.dropWhile isWS) ∧
          3 ≤ L + chainAhead (cs.dropWhile isWS) then false
      else okP4go L (some c) cs
    else if isAsciiLetter c && prevNonWordOrStart prev && headNonWordOrEnd cs then
      okP4go (L + 1) (some c) cs
    else okP4go 0 (some c) cs

theorem p4_id : ∀ (l : Str) (L : Nat) (p : Option Char),
    okP4go L p l = true → p4go L p l = l := by
  intro l
  induction l with
  | nil => intro L p _; rfl
  | cons c cs ih =>
    intro L p h
    by_cases hc : isWS c = true
    · rw [okP4go, if_pos hc] at h
      rw [p4go, if_pos hc]
      split at h
      · simp at h
      · rename_i hcond
        rw [if_neg hcond]
        exact congrArg (c :: ·) (ih L (some c) h)
    · rw [okP4go, if_neg hc] at h
      rw [p4go, if_neg hc]
      split at h
      · rename_i hcond
        rw [if_pos hcond]
        exact congrArg (c :: ·) (ih (L + 1) (some c) h)
      · rename_i hcond
        rw [if_neg hcond]
        exact congrArg (c :: ·) (ih 0 (some c) h)

theorem p4_est : ∀ (l : Str) (L L2 : Nat) (p q : Option Char),
    okWSgo p l = true → L2 ≤ L →
    (prevNonWordOrStart q = true → prevNonWordOrStart p = true) →
    okP4go L2 q (p4go L p l) = true := by
  intro l
  induction l with
  | nil => intro L L2 p q _ _ _; rfl
  | cons c cs ih =>
    intro L L2 p q hw hL hpq
    have hwt := okWSgo_tail hw
    by_cases hc : isWS c = true
    · obtain ⟨_, _, hhs⟩ := okWSgo_ws_parts hw hc
      rw [p4go, if_pos hc]
      split
      · exact ih L L2 (some c) q hwt hL
          (fun _ => by simp [prevNonWordOrStart, ws_not_word hc])
      · rename_i hcond
        rw [okP4go, if_pos hc]
        have hsout : headSolid (p4go L (some c) cs) = true := headSolid_p4go L (some c) hhs
        have hdwo : (p4go L (some c) cs).dropWhile isWS = p4go L (some c) cs :=
          dropWhile_head_false _ (headSolid_headWS hsout)
        have hdwc : cs.dropWhile isWS = cs := dropWhile_head_false cs (headSolid_headWS hhs)
        have hA : chainAhead (p4go L (some c) cs) ≤ chainAhead cs := by
          rw [chainAhead, chainAhead, chGo02 (headSolid_headWS hsout),
            chGo02 (headSolid_headWS hhs)]
          exact (chGo_p4go_le cs L (some c) hwt).1
        have hfalse : ¬(1 ≤ L2 ∧ 1 ≤ chainAhead ((p4go L (some c) cs).dropWhile isWS) ∧
            3 ≤ L2 + chainAhead ((p4go L (some c) cs).dropWhile isWS)) := by
          rw [hdwo]
          rintro ⟨g1, g2, g3⟩
          apply hcond
          rw [hdwc]
          exact ⟨Nat.le_trans g1 hL, Nat.le_trans g2 hA,
            Nat.le_trans g3 (Nat.add_le_add hL hA)⟩
        rw [if_neg hfalse]
        exact ih L L2 (some c) (some c) hwt hL (fun h => h)
    · rw [p4go, if_neg hc]
      split
      · rw [okP4go, if_neg hc]
        split
        · exact ih (L + 1) (L2 + 1) (some c) (some c) hwt (Nat.succ_le_succ hL) (fun h => h)
        · exact ih (L + 1) 0 (some c) (some c) hwt (Nat.zero_le _) (fun h => h)
      · rename_i hcond
        rw [okP4go, if_neg hc]
        split
        · rename_i hq
          exfalso
          simp only [Bool.and_eq_true] at hq
          apply hcond
          simp only [Bool.and_eq_true]
          exact ⟨⟨hq.1.1, hpq hq.1.2⟩, hnwe_p4go 0 (some c) hq.2⟩
        · exact ih 0 0 (some c) (some c) hwt (Nat.le_refl 0) (fun h => h)

theorem okP4_p5 : ∀ (l : Str) (L L2 : Nat) (p q : Option Char),
    okWSgo p l = true → L2 ≤ L →
    (prevNonWordOrStart q = true → prevNonWordOrStart p = true) →
    okP4go L p l = true → okP4go L2 q (p5 l) = true := by
  intro l
  induction l with
  | nil => intro L L2 p q _ _ _ _; rfl
  | cons c cs ih =>
    intro L L2 p q hw hL hpq h4
    have hwt := okWSgo_tail hw
    by_cases hc : isWS c = true
    · obtain ⟨_, _, hhs⟩ := okWSgo_ws_parts hw hc
      rw [okP4go, if_pos hc] at h4
      split at h4
      · simp at h4
      · rename_i hcond
        simp only [p5]
        split
        · exact ih L L2 (some c) q hwt hL
            (fun _ => by simp [prevNonWordOrStart, ws_not_word hc]) h4
        · rw [okP4go, if_pos hc]
          have hsout : headSolid (p5 cs) = true := headSolid_p5 hhs
          have hdwo : (p5 cs).dropWhile isWS = p5 cs :=
            dropWhile_head_false _ (headSolid_headWS hsout)
          have hdwc : cs.dropWhile isWS = cs := dropWhile_head_false cs (headSolid_headWS hhs)
          have hA : chainAhead (p5 cs) ≤ chainAhead cs := by
            rw [chainAhead, chainAhead, chGo02 (headSolid_headWS hsout),
              chGo02 (headSolid_headWS hhs)]
            exact (chGo_p5_le cs (some c) hwt).1
          have hfalse : ¬(1 ≤ L2 ∧ 1 ≤ chainAhead ((p5 cs).dropWhile isWS) ∧
              3 ≤ L2 + chainAhead ((p5 cs).dropWhile isWS)) := by
            rw [hdwo]
            rintro ⟨g1, g2, g3⟩
            apply hcond
            rw [hdwc]
            exact ⟨Nat.le_trans g1 hL, Nat.le_trans g2 hA,
              Nat.le_trans g3 (Nat.add_le_add hL hA)⟩
          rw [if_neg hfalse]
          exact ih L L2 (some c) (some c) hwt hL (fun h => h) h4
    · have hcf : isWS c = false := by simpa using hc
      rw [okP4go, if_neg hc] at h4
      rw [p5_cons_solid c cs hcf, okP4go, if_neg hc]
      split at h4
      · split
        · exact ih (L + 1) (L2 + 1) (some c) (some c) hwt (Nat.succ_le_succ hL)
            (fun h => h) h4
        · exact ih (L + 1) 0 (some c) (some c) hwt (Nat.zero_le _) (fun h => h) h4
      · rename_i hcond
        split
        · rename_i hq
          exfalso
          simp only [Bool.and_eq_true] at hq
          apply hcond
          simp only [Bool.and_eq_true]
          exact ⟨⟨hq.1.1, hpq hq.1.2⟩, hnwe_p5 hq.2⟩
        · exact ih 0 0 (some c) (some c) hwt (Nat.le_refl 0) (fun h => h) h4

/-! Pass 2 redex-freeness: neither of the two spaced-number rewrites applies
anywhere during a scan. -/

def okP2go (p2d : Bool) (prev : Option Char) : Str → Bool
  | [] => true
  | c :: cs =>
    if isWS c && prevDigit prev && p2SpacedMatch (c :: cs) then false
    else if isWS c && p2d && prevNumPunct prev && headDigit (cs.dropWhile isWS) then false
    else okP2go (prevDigit prev) (some c) cs

theorem okP2go_parts {a : Bool} {b : Option Char} {c : Char} {cs : Str}
    (h : okP2go a b (c :: cs) = true) :
    (isWS c && prevDigit b && p2SpacedMatch (c :: cs)) = false ∧
    (isWS c && a && prevNumPunct b && headDigit (cs.dropWhile isWS)) = false ∧
    okP2go (prevDigit b) (some c) cs = true := by
  rw [okP2go] at h
  split at h
  · simp at h
  · split at h
    · simp at h
    · rename_i h1 h2
      exact ⟨by simpa using h1, by simpa using h2, h⟩

theorem p2_id : ∀ (l : Str) (a : Bool) (b : Option Char),
    okP2go a b l = true → p2go a b l = l := by
  intro l
  induction l with
  | nil => intro a b _; rfl
  | cons c cs ih =>
    intro a b h
    obtain ⟨h1, h2, ht⟩ := okP2go_parts h
    rw [p2go, if_neg (by simp [h1]), if_neg (by simp [h2])]
    exact congrArg (c :: ·) (ih (prevDigit b) (some c) ht)

theorem p2_est : ∀ (l : Str) (a : Bool) (b bi : Option Char),
    okWSgo bi l = true → okP2go a b (p2go a b l) = true := by
  intro l
  induction l with
  | nil => intro a b bi _; rfl
  | cons c cs ih =>
    intro a b bi hw
    have hwt := okWSgo_tail hw
    rw [p2go]
    split
    · exact ih a b (some c) hwt
    · split
      · exact ih a b (some c) hwt
      · rename_i hR1 hR2
        rw [okP2go]
        by_cases hc : isWS c = true
        · obtain ⟨_, _, hhs⟩ := okWSgo_ws_parts hw hc
          have hO1 : (isWS c && prevDigit b &&
              p2SpacedMatch (c :: p2go (prevDigit b) (some c) cs)) = false := by
            rw [p2sm_ws (p2go (prevDigit b) (some c) cs) hc,
              p2sm_p2go cs (prevDigit b) (some c) (some c) hwt hhs, ← p2sm_ws cs hc]
            simpa using hR1
          have hO2 : (isWS c && a && prevNumPunct b &&
              headDigit ((p2go (prevDigit b) (some c) cs).dropWhile isWS)) = false := by
            rw [hd_dw_p2go cs (prevDigit b) (some c) (some c) hwt]
            simpa using hR2
          rw [if_neg (by simp [hO1]), if_neg (by simp [hO2])]
          exact ih (prevDigit b) (some c) (some c) hwt
        · have hcf : isWS c = false := by simpa using hc
          rw [if_neg (by simp [hcf]), if_neg (by simp [hcf])]
          exact ih (prevDigit b) (some c) (some c) hwt

/-! Pass-2 redex-freeness survives pass 3: a deleted digit-whitespace-digit run
leaves a digit on the left, which can satisfy neither pass-2 lookbehind. -/

theorem okP2_p3go : ∀ (l : Str) (pd a a' : Bool) (b b' : Option Char),
    okWSgo b l = true →
    okP2go a b l = true →
    ((b' = b ∧ pd = prevDigit b ∧ (a' = a ∨ prevDigit b = true)) ∨
      (pd = true ∧ isWSopt b = true ∧ prevDigit b' = true ∧ headDigit l = true)) →
    okP2go a' b' (p3go pd l) = true := by
  intro l
  induction l with
  | nil => intro pd a a' b b' _ _ _; rfl
  | cons c cs ih =>
    intro pd a a' b b' hw h2 hinv
    have hwt := okWSgo_tail hw
    obtain ⟨hX1, hX2, h2t⟩ := okP2go_parts h2
    rcases hinv with ⟨hbb, hpd, ha⟩ | ⟨hpd, hbws, hbd, hhd⟩
    · by_cases hc : isWS c = true
      · obtain ⟨_, _, hhs⟩ := okWSgo_ws_parts hw hc
        have hdwc : cs.dropWhile isWS = cs := dropWhile_head_false cs (headSolid_headWS hhs)
        rw [p3go]
        split
        · rename_i hdel
          simp only [Bool.and_eq_true] at hdel
          apply ih pd (prevDigit b) a' (some c) b' hwt h2t
          right
          refine ⟨hdel.1.2, by simp [isWSopt, hc], ?_, ?_⟩
          · rw [hbb, ← hpd]
            exact hdel.1.2
          · rw [← hdwc]
            exact hdel.2
        · rw [okP2go]
          have hO1 : (isWS c && prevDigit b' &&
              p2SpacedMatch (c :: p3go c.isDigit cs)) = false := by
            rw [p2sm_ws (p3go c.isDigit cs) hc, p2sm_p3go cs c.isDigit (some c) hwt hhs,
              ← p2sm_ws cs hc, hbb]
            simpa using hX1
          have hO2 : (isWS c && a' && prevNumPunct b' &&
              headDigit ((p3go c.isDigit cs).dropWhile isWS)) = false := by
            rw [hd_dw_p3go cs c.isDigit (some c) hwt, hbb]
            rcases ha with ha | ha
            · rw [ha]
              simpa using hX2
            · rcases b with _ | d
              · simp [prevDigit] at ha
              · simp only [prevDigit] at ha
                simp [prevNumPunct, digit_not_numpunct ha]
          rw [if_neg (by simp [hO1]), if_neg (by simp [hO2])]
          apply ih c.isDigit (prevDigit b) (prevDigit b') (some c) (some c) hwt h2t
          left
          exact ⟨rfl, rfl, Or.inl (by rw [hbb])⟩
      · have hcf : isWS c = false := by simpa using hc
        rw [p3go_cons_solid pd c cs hcf, okP2go, if_neg (by simp [hcf]),
          if_neg (by simp [hcf])]
        apply ih c.isDigit (prevDigit b) (prevDigit b') (some c) (some c) hwt h2t
        left
        exact ⟨rfl, rfl, Or.inl (by rw [hbb])⟩
    · have hcd : c.isDigit = true := by simpa [headDigit] using hhd
      have hcf : isWS c = false := digit_not_ws hcd
      rw [p3go_cons_solid pd c cs hcf, okP2go, if_neg (by simp [hcf]),
        if_neg (by simp [hcf])]
      apply ih c.isDigit (prevDigit b) (prevDigit b') (some c) (some c) hwt h2t
      left
      refine ⟨rfl, rfl, Or.inr ?_⟩
      simpa [prevDigit] using hcd

/-! Pass-2 redex-freeness survives pass 4: a chain deletion leaves a single
ASCII letter on the left, which is neither a digit nor `.`/`,`. -/

theorem okP2_p4go : ∀ (l : Str) (L : Nat) (p : Option Char) (a a' : Bool)
    (b b' : Option Char),
    okWSgo b l = true →
    okP2go a b l = true →
    ((b' = b ∧ (a' = a ∨ prevLetter b = true)) ∨
      (isWSopt b = true ∧ headLetter l = true)) →
    okP2go a' b' (p4go L p l) = true := by
  intro l
  induction l with
  | nil => intro L p a a' b b' _ _ _; rfl
  | cons c cs ih =>
    intro L p a a' b b' hw h2 hinv
    have hwt := okWSgo_tail hw
    obtain ⟨hX1, hX2, h2t⟩ := okP2go_parts h2
    rcases hinv with ⟨hbb, ha⟩ | ⟨hbws, hhl⟩
    · by_cases hc : isWS c = true
      · obtain ⟨_, _, hhs⟩ := okWSgo_ws_parts hw hc
        rw [p4go, if_pos hc]
        split
        · rename_i hdel
          apply ih L (some c) (prevDigit b) a' (some c) b' hwt h2t
          right
          refine ⟨by simp [isWSopt, hc], ?_⟩
          have hdwc : cs.dropWhile isWS = cs := dropWhile_head_false cs (headSolid_headWS hhs)
          have h1A : 1 ≤ chainAhead cs := by
            rw [← hdwc]
            exact hdel.2.1
          cases cs with
          | nil => exact absurd h1A (by decide)
          | cons e t =>
            rw [chainAhead, chGo0_cons] at h1A
            by_cases he : (isAsciiLetter e && headNonWordOrEnd t) = true
            · simp only [Bool.and_eq_true] at he
              simp [headLetter, he.1]
            · rw [if_neg he] at h1A
              exact absurd h1A (by simp)
        · rw [okP2go]
          have hO1 : (isWS c && prevDigit b' &&
              p2SpacedMatch (c :: p4go L (some c) cs)) = false := by
            rw [p2sm_ws (p4go L (some c) cs) hc, p2sm_p4go cs L (some c) (some c) hwt hhs,
              ← p2sm_ws cs hc, hbb]
            simpa using hX1
          have hO2 : (isWS c && a' && prevNumPunct b' &&
              headDigit ((p4go L (some c) cs).dropWhile isWS)) = false := by
            rw [hd_dw_p4go cs L (some c) (some c) hwt, hbb]
            rcases ha with ha | ha
            · rw [ha]
              simpa using hX2
            · rcases b with _ | e
              · simp [prevLetter] at ha
              · simp only [prevLetter] at ha
                simp [prevNumPunct, letter_not_numpunct ha]
          rw [if_neg (by simp [hO1]), if_neg (by simp [hO2])]
          apply ih L (some c) (prevDigit b) (prevDigit b') (some c) (some c) hwt h2t
          left
          exact ⟨rfl, Or.inl (by rw [hbb])⟩
      · have hcf : isWS c = false := by simpa using hc
        rw [p4go, if_neg hc]
        have key : ∀ (M : Nat), okP2go a' b' (c :: p4go M (some c) cs) = true := by
          intro M
          rw [okP2go, if_neg (by simp [hcf]), if_neg (by simp [hcf])]
          apply ih M (some c) (prevDigit b) (prevDigit b') (some c) (some c) hwt h2t
          left
          exact ⟨rfl, Or.inl (by rw [hbb])⟩
        split
        · exact key (L + 1)
        · exact key 0
    · have hcl : isAsciiLetter c = true := by simpa [headLetter] using hhl
      have hcf : isWS c = false := letter_not_ws hcl
      rw [p4go, if_neg (by simp [hcf])]
      have key : ∀ (M : Nat), okP2go a' b' (c :: p4go M (some c) cs) = true := by
        intro M
        rw [okP2go, if_neg (by simp [hcf]), if_neg (by simp [hcf])]
        apply ih M (some c) (prevDigit b) (prevDigit b') (some c) (some c) hwt h2t
        left
        refine ⟨rfl, Or.inr ?_⟩
        simpa [prevLetter] using hcl
      split
      · exact key (L + 1)
      · exact key 0

/-! Pass-2 redex-freeness survives pass 5: a deleted space sits before one of
`,.;:!?`, and the pass-2 condition that could newly fire across the join is
refuted by the pass-2 lookahead fact recorded at the deleted space. -/

theorem okP2_p5 : ∀ (l : Str) (a a' : Bool) (b b' : Option Char),
    okWSgo b l = true →
    okP2go a b l = true →
    ((b' = b ∧ (a' = a ∨ (isP5opt b = true ∧
        (a' && prevNumPunct b && headDigit (l.dropWhile isWS)) = false))) ∨
      (isWSopt b = true ∧ (prevDigit b' && p2SpacedMatch l) = false ∧
        headP5Punct (p5 l) = true)) →
    okP2go a' b' (p5 l) = true := by
  intro l
  induction l with
  | nil => intro a a' b b' _ _ _; rfl
  | cons c cs ih =>
    intro a a' b b' hw h2 hinv
    have hwt := okWSgo_tail hw
    obtain ⟨hX1, hX2, h2t⟩ := okP2go_parts h2
    rcases hinv with ⟨hbb, ha⟩ | ⟨hbws, hcar, hp5⟩
    · by_cases hc : isWS c = true
      · obtain ⟨_, _, hhs⟩ := okWSgo_ws_parts hw hc
        simp only [p5]
        split
        · rename_i hdel
          simp only [Bool.and_eq_true] at hdel
          apply ih (prevDigit b) a' (some c) b' hwt h2t
          right
          refine ⟨by simp [isWSopt, hc], ?_, hdel.2⟩
          rw [hbb]
          rcases ha with ha | ⟨hP5, hcar⟩
          · rw [← p2sm_ws cs hc]
            have h' := hX1
            rw [hc] at h'
            simpa using h'
          · rcases b with _ | P
            · simp [isP5opt] at hP5
            · simp only [isP5opt] at hP5
              simp [prevDigit, p5punct_not_digit hP5]
        · rw [okP2go]
          have hO1 : (isWS c && prevDigit b' && p2SpacedMatch (c :: p5 cs)) = false := by
            rw [p2sm_ws (p5 cs) hc, p2sm_p5 cs (some c) hwt hhs, ← p2sm_ws cs hc, hbb]
            rcases ha with ha | ⟨hP5, hcar⟩
            · simpa using hX1
            · rcases b with _ | P
              · simp [isP5opt] at hP5
              · simp only [isP5opt] at hP5
                simp [prevDigit, p5punct_not_digit hP5]
          have hO2 : (isWS c && a' && prevNumPunct b' &&
              headDigit ((p5 cs).dropWhile isWS)) = false := by
            rw [hd_dw_p5 cs (some c) hwt, hbb]
            rcases ha with ha | ⟨hP5, hcar⟩
            · rw [ha]
              simpa using hX2
            · have hdd : (c :: cs).dropWhile isWS = cs.dropWhile isWS := by
                rw [List.dropWhile_cons, if_pos (by simp [hc])]
              rw [hdd] at hcar
              rcases Bool.and_eq_false_iff.mp hcar with h' | h'
              · rcases Bool.and_eq_false_iff.mp h' with h'' | h''
                · simp [h'']
                · simp [h'']
              · simp [h']
          rw [if_neg (by simp [hO1]), if_neg (by simp [hO2])]
          apply ih (prevDigit b) (prevDigit b') (some c) (some c) hwt h2t
          left
          exact ⟨rfl, Or.inl (by rw [hbb])⟩
      · have hcf : isWS c = false := by simpa using hc
        rw [p5_cons_solid c cs hcf, okP2go, if_neg (by simp [hcf]),
          if_neg (by simp [hcf])]
        apply ih (prevDigit b) (prevDigit b') (some c) (some c) hwt h2t
        left
        exact ⟨rfl, Or.inl (by rw [hbb])⟩
    · have hcf : isWS c = false := by
        by_cases hcw : isWS c = true
        · obtain ⟨_, hps, _⟩ := okWSgo_ws_parts hw hcw
          rcases b with _ | w
          · simp [isWSopt] at hbws
          · simp only [isWSopt] at hbws
            simp [prevSolid, hbws] at hps
        · simpa using hcw
      rw [p5_cons_solid c cs hcf] at hp5
      have hcP5 : isP5Punct c = true := by simpa [headP5Punct] using hp5
      rw [p5_cons_solid c cs hcf, okP2go, if_neg (by simp [hcf]), if_neg (by simp [hcf])]
      apply ih (prevDigit b) (prevDigit b') (some c) (some c) hwt h2t
      left
      refine ⟨rfl, Or.inr ⟨by simpa [isP5opt] using hcP5, ?_⟩⟩
      rw [p2sm_cons_solid cs hcf] at hcar
      simp only [prevNumPunct]
      rw [Bool.and_assoc]
      exact hcar

/-- C9: `clean_wiki_text` is idempotent - cleaning an already-cleaned string
returns it unchanged, for every input string.  The first application leaves the
text in the normal form of each of the five rewriting passes (whitespace
collapsed and stripped, no spaced-number rewrite applicable, no whitespace run
between digits, no deletable whitespace inside a single-letter chain, no
whitespace before closing punctuation), each later pass preserves the normal
forms of the earlier ones, and on such text every pass is the identity. -/
theorem clean_wiki_text_idempotent (x : Str) :
    clean_wiki_text (clean_wiki_text x) = clean_wiki_text x := by
  have main : ∀ (y : Str), okWSgo none y = true → okP2go false none y = true →
      okP3go none y = true → okP4go 0 none y = true → okP5 y = true →
      clean_wiki_text y = y := by
    intro y hW h2 h3 h4 h5
    unfold clean_wiki_text
    rw [okWS_p1_id y hW, p2_id y false none h2]
    have i3 := p3_id y none hW h3
    rw [show prevDigit none = false from rfl] at i3
    rw [i3, p4_id y 0 none h4, p5_id y h5]
  have hW1 := p1_ok x
  have hW2 := okWS_p2go (collapseWS (strip x)) false none none hW1
  have hW3 := okWS_p3go (p2go false none (collapseWS (strip x))) false none hW2
  have hW4 := okWS_p4go (p3go false (p2go false none (collapseWS (strip x)))) 0 none none hW3
  have hWy := okWS_p5 (p4go 0 none (p3go false (p2go false none (collapseWS (strip x)))))
    none hW4
  have h2e := p2_est (collapseWS (strip x)) false none none hW1
  have h2x3 := okP2_p3go (p2go false none (collapseWS (strip x))) false false false none none
    hW2 h2e (Or.inl ⟨rfl, rfl, Or.inl rfl⟩)
  have h2x4 := okP2_p4go (p3go false (p2go false none (collapseWS (strip x)))) 0 none
    false false none none hW3 h2x3 (Or.inl ⟨rfl, Or.inl rfl⟩)
  have h2y := okP2_p5 (p4go 0 none (p3go false (p2go false none (collapseWS (strip x)))))
    false false none none hW4 h2x4 (Or.inl ⟨rfl, Or.inl rfl⟩)
  have h3e := p3_est (p2go false none (collapseWS (strip x))) false none rfl
  have h3x4 := okP3_p4go (p3go false (p2go false none (collapseWS (strip x)))) 0 none none
    hW3 h3e
  have h3y := okP3_p5 (p4go 0 none (p3go false (p2go false none (collapseWS (strip x)))))
    none hW4 h3x4
  have h4e := p4_est (p3go false (p2go false none (collapseWS (strip x)))) 0 0 none none
    hW3 (Nat.le_refl 0) (fun h => h)
  have h4y := okP4_p5 (p4go 0 none (p3go false (p2go false none (collapseWS (strip x)))))
    0 0 none none hW4 (Nat.le_refl 0) (fun h => h) h4e
  have h5y := p5_est (p4go 0 none (p3go false (p2go false none (collapseWS (strip x)))))
  exact main (clean_wiki_text x) hWy h2y h3y h4y h5y

example : word_count (str "a b  c") = 3 := by decide

example : split_sentences (str "x. y. z.") = [ str "x.", str "y.", str "z."] := by decide

example : word_count (enforce_lt_500_words_complete [ str "x. y. z."] 1) = 3 := by decide

example : clean_wiki_text (str "U S A grows 1 , 000 %") = str "USA grows 1,000 %" := by
  decide

/-! ### Helper lemmas about `extract_5_urls` -/

theorem extract_go_cons_add (d : Doc) (ds : List Doc) (out : List (Str × Str))
    (seen : List Str) (h1 : docUrl d ≠ []) (h2 : ¬ docUrl d ∈ seen) :
    extract_5_urls_go (d :: ds) out seen =
      if (out ++ [(docTitle d, docUrl d)]).length = 5 then out ++ [(docTitle d, docUrl d)]
      else extract_5_urls_go ds (out ++ [(docTitle d, docUrl d)]) (seen ++ [docUrl d]) := by
  simp [extract_5_urls_go, h1, h2]

theorem extract_go_cons_skip (d : Doc) (ds : List Doc) (out : List (Str × Str))
    (seen : List Str) (h : docUrl d = [] ∨ docUrl d ∈ seen) :
    extract_5_urls_go (d :: ds) out seen =
      if out.length = 5 then out else extract_5_urls_go ds out seen := by
  rcases h with h | h
  · simp [extract_5_urls_go, h]
  · simp [extract_5_urls_go, h]

theorem extract_go_length_le (ds : List Doc) : ∀ (out : List (Str × Str)) (seen : List Str),
    out.length < 5 → (extract_5_urls_go ds out seen).length ≤ 5 := by
  induction ds with
  | nil =>
    intro out seen h
    simpa [extract_5_urls_go] using Nat.le_of_lt h
  | cons d ds ih =>
    intro out seen h
    by_cases hc : docUrl d ≠ [] ∧ ¬ docUrl d ∈ seen
    · rw [extract_go_cons_add d ds out seen hc.1 hc.2]
      by_cases h5 : (out ++ [(docTitle d, docUrl d)]).length = 5
      · simp [h5]
      · have hlt : (out ++ [(docTitle d, docUrl d)]).length < 5 := by
          simp only [List.length_append, List.length_cons, List.length_nil] at h5 ⊢
          omega
        simp only [h5, if_false]
        exact ih _ _ hlt
    · rw [extract_go_cons_skip d ds out seen (by tauto)]
      have h5 : ¬ out.length = 5 := by omega
      simp only [h5, if_false]
      exact ih _ _ h

theorem extract_go_nodup (ds : List Doc) : ∀ (out : List (Str × Str)) (seen : List Str),
    seen.Nodup → out.map Prod.snd = seen →
    ((extract_5_urls_go ds out seen).map Prod.snd).Nodup := by
  induction ds with
  | nil =>
    intro out seen hn he
    simpa [extract_5_urls_go, he] using hn
  | cons d ds ih =>
    intro out seen hn he
    by_cases hc : docUrl d ≠ [] ∧ ¬ docUrl d ∈ seen
    · have hn2 : (seen ++ [docUrl d]).Nodup := by
        simp [List.nodup_append, hn, hc.2]
      have he2 : (out ++ [(docTitle d, docUrl d)]).map Prod.snd = seen ++ [docUrl d] := by
        simp [he]
      rw [extract_go_cons_add d ds out seen hc.1 hc.2]
      by_cases h5 : (out ++ [(docTitle d, docUrl d)]).length = 5
      · simpa [h5, he2] using hn2
      · simp only [h5, if_false]
        exact ih _ _ hn2 he2
    · rw [extract_go_cons_skip d ds out seen (by tauto)]
      by_cases h5 : out.length = 5
      · simpa [h5, he] using hn
      · simp only [h5, if_false]
        exact ih _ _ hn he

theorem extract_go_complete (ds : List Doc) : ∀ (out : List (Str × Str)) (seen : List Str),
    (∀ d ∈ ds, docUrl d ≠ []) → (ds.map docUrl).Nodup →
    (∀ d ∈ ds, ¬ docUrl d ∈ seen) → out.length < 5 →
    extract_5_urls_go ds out seen =
      out ++ (ds.take (5 - out.length)).map (fun d => (docTitle d, docUrl d)) := by
  induction ds with
  | nil =>
    intro out seen _ _ _ _
    simp [extract_5_urls_go]
  | cons d ds ih =>
    intro out seen hne hnd hdisj hlen
    have hu : docUrl d ≠ [] := hne d (by simp)
    have hus : ¬ docUrl d ∈ seen := hdisj d (by simp)
    rw [extract_go_cons_add d ds out seen hu hus]
    have htake : 5 - out.length = (5 - (out.length + 1)) + 1 := by omega
    by_cases h5 : (out ++ [(docTitle d, docUrl d)]).length = 5
    · have h1 : 5 - out.length = 1 := by
        simp only [List.length_append, List.length_cons, List.length_nil] at h5
        omega
      simp [h5, h1]
    · have hlt : (out ++ [(docTitle d, docUrl d)]).length < 5 := by
        simp only [List.length_append, List.length_cons, List.length_nil] at h5 ⊢
        omega
      have hnd' : (∀ x ∈ ds, ¬ docUrl x = docUrl d) ∧ (ds.map docUrl).Nodup := by
        simpa using hnd
      have hdisj2 : ∀ d' ∈ ds, ¬ docUrl d' ∈ seen ++ [docUrl d] := by
        intro d' hd'
        simp only [List.mem_append, List.mem_singleton]
        push_neg
        exact ⟨hdisj d' (by simp [hd']), hnd'.1 d' hd'⟩
      have hrec := ih (out ++ [(docTitle d, docUrl d)]) (seen ++ [docUrl d])
        (fun d' hd' => hne d' (by simp [hd'])) hnd'.2 hdisj2 hlt
      simp only [h5, if_false, hrec]
      rw [htake]
      simp [List.take_succ_cons, List.length_append]

/-! ### Claim C6 -/

/-- C6: on a documents list whose (effective) urls are all non-empty and pairwise
distinct and that has at least five entries, `extract_5_urls` returns exactly the
five (title, url) pairs of the first five documents, in input order. -/
theorem extract_5_urls_distinct_complete (docs : List Doc)
    (h1 : ∀ d ∈ docs, docUrl d ≠ []) (h2 : (docs.map docUrl).Nodup)
    (h3 : 5 ≤ docs.length) :
    extract_5_urls docs = (docs.take 5).map (fun d => (docTitle d, docUrl d)) ∧
    (extract_5_urls docs).length = 5 := by
  have h := extract_go_complete docs [] [] h1 h2 (by simp) (by simp)
  have hlen : (docs.take 5).length = 5 := by
    simp [List.length_take, Nat.min_eq_left h3]
  constructor
  · simpa [extract_5_urls] using h
  · simp only [extract_5_urls]
    rw [h]
    simp only [List.nil_append, List.length_map, List.length_nil, Nat.sub_zero]
    exact hlen

def w_doc (i : Nat) : Doc :=
  { title := str "T" ++ [Char.ofNat (48 + i)], source := str "u" ++ [Char.ofNat (48 + i)],
    page_content := str "banking" }

/-- Witness for C6 at six concrete documents. -/
theorem extract_5_urls_distinct_complete_witness :
    (∀ d ∈ [w_doc 1, w_doc 2, w_doc 3, w_doc 4, w_doc 5, w_doc 6], docUrl d ≠ []) ∧
    (([w_doc 1, w_doc 2, w_doc 3, w_doc 4, w_doc 5, w_doc 6].map docUrl).Nodup) ∧
    extract_5_urls [w_doc 1, w_doc 2, w_doc 3, w_doc 4, w_doc 5, w_doc 6] =
      ([w_doc 1, w_doc 2, w_doc 3, w_doc 4, w_doc 5, w_doc 6].take 5).map
        (fun d => (docTitle d, docUrl d)) :=
  ⟨by decide, by decide,
    (extract_5_urls_distinct_complete _ (by decide) (by decide) (by decide)).1⟩

/-! ### Helper lemma: what an accepted validation result looks like -/

theorem validate_accept_shape (industry : Str) (r : Retriever) (mr msd mshd : Nat)
    (res : ValidationResult)
    (h : validate_industry_with_wikipedia industry r mr msd mshd = Except.ok res)
    (ha : res.accepted = true) :
    res.links.length = 5 ∧ mr ≤ res.docs.length := by
  unfold validate_industry_with_wikipedia at h
  split at h
  · injection h with h2
    rw [← h2] at ha
    simp at ha
  · split at h
    · cases h
    · rename_i docs hdocs
      split at h
      · injection h with h2; rw [← h2] at ha; simp at ha
      · split at h
        · injection h with h2; rw [← h2] at ha; simp at ha
        · rename_i hmr
          split at h
          · injection h with h2; rw [← h2] at ha; simp at ha
          · rename_i hpairs
            split at h
            · injection h with h2; rw [← h2] at ha; simp at ha
            · injection h with h2
              rw [← h2]
              have hle : (extract_5_urls (docs_to_use docs mr mshd)).length ≤ 5 :=
                extract_go_length_le _ _ _ (by simp)
              constructor
              · show (extract_5_urls (docs_to_use docs mr mshd)).length = 5
                omega
              · show mr ≤ (docs_to_use docs mr mshd).length
                omega

/-! ### Claim C7 -/

/-- C7: the links extracted by `extract_5_urls` always have pairwise distinct urls
and length at most 5, and an accepted validation result carries exactly 5 links. -/
theorem extract_5_urls_invariant_and_accept (docs : List Doc) (industry : Str)
    (r : Retriever) (mr msd mshd : Nat) (res : ValidationResult) :
    ((extract_5_urls docs).map Prod.snd).Nodup ∧ (extract_5_urls docs).length ≤ 5 ∧
    (validate_industry_with_wikipedia industry r mr msd mshd = Except.ok res →
      res.accepted = true → res.links.length = 5) :=
  ⟨extract_go_nodup docs [] [] (by simp) (by simp),
   extract_go_length_le docs [] [] (by simp),
   fun h ha => (validate_accept_shape industry r mr msd mshd res h ha).1⟩

def good_docs : List Doc := [w_doc 1, w_doc 2, w_doc 3, w_doc 4, w_doc 5]

def good_retriever : Retriever :=
  { invoke := fun _ => Except.ok good_docs,
    get_relevant_documents := fun _ => Except.ok good_docs }

def good_result : ValidationResult :=
  { accepted := true, message := str "OK", docs := good_docs,
    links := good_docs.map (fun d => (docTitle d, docUrl d)) }

/-- Witness for C7: a duplicate-url documents list, and a concrete accepted call. -/
theorem extract_5_urls_invariant_witness :
    validate_industry_with_wikipedia (str "fintech") good_retriever 5 2 1 =
      Except.ok good_result ∧ good_result.accepted = true ∧
      good_result.links.length = 5 :=
  ⟨by decide, rfl,
   (extract_5_urls_invariant_and_accept [w_doc 1, w_doc 1] (str "fintech") good_retriever
      5 2 1 good_result).2.2 (by decide) rfl⟩

/-! ### Claim C4 -/

def lone_doc : Doc := { title := str "T", source := str "u1", page_content := str "zzz" }

def one_doc_retriever : Retriever :=
  { invoke := fun _ => Except.ok [lone_doc],
    get_relevant_documents := fun _ => Except.ok [lone_doc] }

/-- C4 counterexample: a rejected result (insufficient results) whose documents
sequence is the non-empty `[lone_doc]`, so rejection does not always return empty
documents and links. -/
theorem validate_rejection_with_nonempty_docs :
    validate_industry_with_wikipedia (str "fintech") one_doc_retriever 5 2 1 =
      Except.ok { accepted := false, message := msg_insufficient (str "fintech"),
                  docs := [lone_doc], links := [] } ∧
    [lone_doc] ≠ ([] : List Doc) := ⟨by decide, by decide⟩

/-- C4 (amended): a complete bundle is guaranteed on acceptance - exactly five
links and at least `min_results` documents - while rejections may retain the
intermediate documents and links computed so far. -/
theorem validate_acceptance_bundle (industry : Str) (r : Retriever) (mr msd mshd : Nat)
    (res : ValidationResult)
    (h : validate_industry_with_wikipedia industry r mr msd mshd = Except.ok res)
    (ha : res.accepted = true) :
    res.links.length = 5 ∧ mr ≤ res.docs.length :=
  validate_accept_shape industry r mr msd mshd res h ha

/-- Witness for C4 at a concrete accepted call. -/
theorem validate_acceptance_bundle_witness :
    validate_industry_with_wikipedia (str "banking sector") good_retriever 5 2 1 =
      Except.ok good_result ∧
    (good_result.links.length = 5 ∧ 5 ≤ good_result.docs.length) :=
  ⟨by decide, validate_acceptance_bundle (str "banking sector") good_retriever 5 2 1
    good_result (by decide) rfl⟩

/-! ### Claim C3 -/

def failing_retriever : Retriever :=
  { invoke := fun _ => Except.error (),
    get_relevant_documents := fun _ => Except.error () }

/-- C3 counterexample: when both retrieval call paths raise, the call does not
return a rejection result - the exception propagates out of validate. -/
theorem validate_double_failure_is_error :
    validate_industry_with_wikipedia (str "fintech") failing_retriever 5 2 1 =
      Except.error () := by decide

/-- C3 (amended): for a query with real text, when the primary retrieval call and
the fallback call both raise, validate propagates the fallback error to its
caller instead of converting it to a "no results" rejection. -/
theorem validate_propagates_fallback_error (industry : Str) (r : Retriever)
    (mr msd mshd : Nat)
    (h0 : has_real_text industry = true)
    (h1 : r.invoke (disambig_query industry) = Except.error ())
    (h2 : r.get_relevant_documents (disambig_query industry) = Except.error ()) :
    validate_industry_with_wikipedia industry r mr msd mshd = Except.error () := by
  unfold validate_industry_with_wikipedia retrieve_docs
  rw [h0, h1, h2]
  simp

/-- Witness for C3 at a concrete double-failing retriever. -/
theorem validate_propagates_fallback_error_witness :
    has_real_text (str "banking") = true ∧
    validate_industry_with_wikipedia (str "banking") failing_retriever 5 2 1 =
      Except.error () :=
  ⟨by decide, validate_propagates_fallback_error (str "banking") failing_retriever 5 2 1
    (by decide) rfl rfl⟩

/-! ### Claim C8 -/

/-- C8: the query handed to retrieval is the industry string with " industry"
appended exactly when the normalized query contains none of "industry",
"sector", "market"; and validate depends on the retriever only through its value
at that query. -/
theorem validate_disambiguation_query (industry : Str) (r1 r2 : Retriever)
    (mr msd mshd : Nat) (h : has_real_text industry = true) :
    disambig_query industry =
      (if containsSub (str "industry") (normalize industry) = false ∧
          containsSub (str "sector") (normalize industry) = false ∧
          containsSub (str "market") (normalize industry) = false
        then industry ++ str " industry" else industry) ∧
    (r1.invoke (disambig_query industry) = r2.invoke (disambig_query industry) →
      r1.get_relevant_documents (disambig_query industry) =
        r2.get_relevant_documents (disambig_query industry) →
      validate_industry_with_wikipedia industry r1 mr msd mshd =
        validate_industry_with_wikipedia industry r2 mr msd mshd) := by
  constructor
  · unfold disambig_query
    exact if_congr (by simp) rfl rfl
  · intro hi hg
    unfold validate_industry_with_wikipedia retrieve_docs
    rw [hi, hg]

/-- Witness for C8 at a concrete query without keywords. -/
theorem validate_disambiguation_query_witness :
    has_real_text (str "fintech") = true ∧
    disambig_query (str "fintech") =
      (if containsSub (str "industry") (normalize (str "fintech")) = false ∧
          containsSub (str "sector") (normalize (str "fintech")) = false ∧
          containsSub (str "market") (normalize (str "fintech")) = false
        then str "fintech" ++ str " industry" else str "fintech") :=
  ⟨by decide,
   (validate_disambiguation_query (str "fintech") good_retriever good_retriever 5 2 1
      (by decide)).1⟩

/-! ### Claim C5 -/

/-- C5: once the industry-ness gate is reached (real-text query, successful
non-empty retrieval, enough chosen documents, five distinct links), validate
rejects if and only if the query score on the original industry string is 0 and
fewer than `min_signal_docs` of the first `min_results` chosen documents reach
the per-document signal threshold on title plus first 500 body characters. -/
theorem validate_industry_gate_iff (industry : Str) (r : Retriever)
    (mr msd mshd : Nat) (ds : List Doc) (res : ValidationResult)
    (h0 : has_real_text industry = true)
    (hr : retrieve_docs r (disambig_query industry) = Except.ok ds)
    (hne : ds.isEmpty = false)
    (hlen : ¬ (docs_to_use ds mr mshd).length < mr)
    (hpairs : ¬ (extract_5_urls (docs_to_use ds mr mshd)).length < 5)
    (hv : validate_industry_with_wikipedia industry r mr msd mshd = Except.ok res) :
    (res.accepted = false ↔
      score_industry_signals industry = 0 ∧
        signal_doc_count (docs_to_use ds mr mshd) mr mshd < msd) := by
  unfold validate_industry_with_wikipedia at hv
  rw [h0, hr] at hv
  simp only [Bool.not_true, Bool.false_eq_true, if_false, hne, hlen, hpairs] at hv
  by_cases hg : score_industry_signals industry = 0 ∧
      signal_doc_count (docs_to_use ds mr mshd) mr mshd < msd
  · rw [if_pos hg] at hv
    injection hv with h2
    rw [← h2]
    simpa using hg
  · rw [if_neg hg] at hv
    injection hv with h2
    rw [← h2]
    simpa using hg

/-- Witness for C5 at a concrete accepted call reaching the gate. -/
theorem validate_industry_gate_iff_witness :
    validate_industry_with_wikipedia (str "fintech") good_retriever 5 2 1 =
      Except.ok good_result ∧
    (good_result.accepted = false ↔
      score_industry_signals (str "fintech") = 0 ∧
        signal_doc_count (docs_to_use good_docs 5 1) 5 1 < 2) :=
  ⟨by decide,
   validate_industry_gate_iff (str "fintech") good_retriever 5 2 1 good_docs good_result
     (by decide) (by decide) (by decide) (by decide) (by decide) (by decide)⟩

/-! ### Claim C10 -/

/-- C10: build_report depends only on the first five documents of its input. -/
theorem build_report_first_five_only (industry : Str) (docs : List Doc) :
    build_report industry docs = build_report industry (docs.take 5) := by
  simp [build_report, assembled_narrative, List.take_take]

/-! ### Word-token lemmas for the report word budget -/

theorem wordsAux_no_ws (l : Str) : ∀ (cur : Str), (∀ c ∈ cur, isWS c = false) →
    ∀ w ∈ wordsAux cur l, w ≠ [] ∧ ∀ c ∈ w, isWS c = false := by
  induction l with
  | nil =>
    intro cur hcur w hw
    simp only [wordsAux] at hw
    split at hw
    · cases hw
    · rename_i hne
      rw [List.mem_singleton] at hw
      subst hw
      exact ⟨by simpa [List.isEmpty_iff] using hne, hcur⟩
  | cons c cs ih =>
    intro cur hcur w hw
    simp only [wordsAux] at hw
    split at hw
    · split at hw
      · exact ih [] (by simp) w hw
      · rename_i hce
        rcases List.mem_cons.mp hw with hw | hw
        · subst hw
          exact ⟨by simpa [List.isEmpty_iff] using hce, hcur⟩
        · exact ih [] (by simp) w hw
    · rename_i hcw
      refine ih (cur ++ [c]) ?_ w hw
      intro x hx
      rcases List.mem_append.mp hx with hx | hx
      · exact hcur x hx
      · rw [List.mem_singleton] at hx
        subst hx
        simpa using hcw

theorem wordsAux_all_nows (w : Str) : ∀ (cur : Str), (∀ c ∈ w, isWS c = false) →
    wordsAux cur w = if cur ++ w = [] then [] else [cur ++ w] := by
  induction w with
  | nil =>
    intro cur _
    simp [wordsAux, List.isEmpty_iff]
  | cons c cs ih =>
    intro cur h
    have hc : isWS c = false := h c (by simp)
    simp only [wordsAux, hc, Bool.false_eq_true, if_false]
    rw [ih (cur ++ [c]) (fun x hx => h x (by simp [hx]))]
    have he : (cur ++ [c]) ++ cs = cur ++ c :: cs := by simp
    rw [he]

theorem wordsAux_word_sep (w : Str) : ∀ (cur rest : Str), (∀ c ∈ w, isWS c = false) →
    cur ++ w ≠ [] → wordsAux cur (w ++ ' ' :: rest) = (cur ++ w) :: wordsAux [] rest := by
  induction w with
  | nil =>
    intro cur rest _ hne
    have hcur : cur ≠ [] := by simpa using hne
    simp [wordsAux, List.isEmpty_iff, hcur, isWS]
  | cons c cs ih =>
    intro cur rest h hne
    have hc : isWS c = false := h c (by simp)
    simp only [List.cons_append, wordsAux, hc, Bool.false_eq_true, if_false, List.append_eq]
    rw [ih (cur ++ [c]) rest (fun x hx => h x (by simp [hx])) (by simp)]
    simp

theorem wordsOf_joinWords (ws : List Str)
    (h : ∀ w ∈ ws, w ≠ [] ∧ ∀ c ∈ w, isWS c = false) :
    wordsOf (joinWords ws) = ws := by
  induction ws with
  | nil => rfl
  | cons w ws ih =>
    cases ws with
    | nil =>
      have hw := h w (by simp)
      simp only [joinWords, joinWith, wordsOf]
      rw [wordsAux_all_nows w [] hw.2]
      simp [hw.1]
    | cons w2 ws2 =>
      have hw := h w (by simp)
      have hs : w ++ str " " ++ joinWith (str " ") (w2 :: ws2) =
          w ++ ' ' :: joinWith (str " ") (w2 :: ws2) := by
        have : str " " = [' '] := by decide
        simp [this]
      simp only [joinWords, joinWith, wordsOf] at ih ⊢
      rw [hs, wordsAux_word_sep w [] _ hw.2 (by simp [hw.1])]
      simp only [List.nil_append]
      rw [show wordsAux [] (joinWith (str " ") (w2 :: ws2)) = w2 :: ws2 from
        ih (fun x hx => h x (by simp [hx]))]

/-! ### Substring test versus `List.IsInfix` -/

theorem isPrefixOfB_iff (p : Str) : ∀ l : Str, isPrefixOfB p l = true ↔ p <+: l := by
  induction p with
  | nil => intro l; simp [isPrefixOfB]
  | cons a as ih =>
    intro l
    cases l with
    | nil => simp [isPrefixOfB]
    | cons b bs =>
      rw [isPrefixOfB]
      simp [List.cons_prefix_cons, ih, Bool.and_eq_true, beq_iff_eq]

theorem containsSub_iff (pat l : Str) : containsSub pat l = true ↔ pat <:+: l := by
  induction l with
  | nil =>
    simp [containsSub, isPrefixOfB_iff, List.prefix_nil, List.infix_nil]
  | cons c cs ih =>
    rw [containsSub, List.infix_cons_iff, ← ih, ← isPrefixOfB_iff]
    simp

/-! ### Claim C1 -/

/-- The fixed part of the narrative after the overview, in the degenerate case
where both bullet blocks are empty and replaced by the placeholder. -/
def fixed_tail : Str :=
  str "**Notable subtopics (quick definitions)**\n\n" ++ placeholder_bullet ++ str "\n\n" ++
  str "**Key themes**\n\n" ++
  str "- Scope & definition: What the industry includes, its core activities, and common boundaries.\n" ++
  str "- Value chain: Typical upstream inputs, production/service delivery, and downstream customers/end users.\n" ++
  str "- Enablers: Technologies, infrastructure, standards, and processes that commonly show up across the pages.\n" ++
  str "- Ecosystem: Adjacent sectors, institutions, and public/private actors that influence outcomes.\n\n" ++
  str "**Current dynamics**\n\n" ++
  str "- Demand-side: The use-cases and adoption contexts implied by the descriptions (who uses the outputs and why).\n" ++
  str "- Supply-side: Inputs, operational complexity, scaling constraints, and typical bottlenecks suggested by the coverage.\n" ++
  str "- Differentiation: Where competition tends to focus (cost, performance, reliability, compliance, and distribution).\n\n" ++
  str "**Grounding extracts**\n\n" ++ placeholder_bullet

theorem infix_of_suffix_contains {p : Str} (t n : Str) (hc : containsSub p t = true)
    (hs : t <:+ n) : containsSub p n = true :=
  (containsSub_iff p n).mpr (((containsSub_iff p t).mp hc).trans hs.isInfix)

set_option maxRecDepth 16000 in
/-- C1 (amended): the word count of the report is at most 500 for every input;
and whenever no document contributes any extract text *and* the assembled
narrative itself stays within the 500-word budget (so that the final
hard-truncation does not fire), the quick-definitions and grounding-extracts
sections each carry the placeholder bullet and the fixed thematic sections are
present. -/
theorem build_report_word_budget_and_placeholders (industry : Str) (docs : List Doc) :
    word_count (build_report industry docs) ≤ 500 ∧
    ((∀ d ∈ docs, docContent d = []) →
      word_count (strip (assembled_narrative industry docs)) ≤ 500 →
      containsSub (str "**Notable subtopics (quick definitions)**\n\n" ++ placeholder_bullet)
          (build_report industry docs) = true ∧
      containsSub (str "**Key themes**") (build_report industry docs) = true ∧
      containsSub (str "**Current dynamics**") (build_report industry docs) = true ∧
      containsSub (str "**Grounding extracts**\n\n" ++ placeholder_bullet)
          (build_report industry docs) = true) := by
  constructor
  · unfold build_report
    by_cases h : 500 < (wordsOf (strip (assembled_narrative industry docs))).length
    · rw [if_pos h]
      have htoks : ∀ w ∈ (wordsOf (strip (assembled_narrative industry docs))).take 500,
          w ≠ [] ∧ ∀ c ∈ w, isWS c = false := fun w hw =>
        wordsAux_no_ws _ [] (by simp) w (List.mem_of_mem_take hw)
      rw [word_count, wordsOf_joinWords _ htoks]
      simp [List.length_take]
    · rw [if_neg h]
      exact Nat.le_of_not_lt h
  · intro hempty h500
    have h500' : (wordsOf (strip (assembled_narrative industry docs))).length ≤ 500 := h500
    have hbr : build_report industry docs = strip (assembled_narrative industry docs) := by
      unfold build_report
      rw [if_neg (not_lt.mpr h500')]
    have hq : quick_defs_of (docs.take 5) = [] := by
      unfold quick_defs_of
      rw [List.filterMap_eq_nil_iff]
      intro d hd
      rw [hempty d (List.mem_of_mem_take hd)]
      rfl
    have he : extracts_of (docs.take 5) = [] := by
      unfold extracts_of
      rw [List.filterMap_eq_nil_iff]
      intro d hd
      rw [hempty d (List.mem_of_mem_take hd)]
      rfl
    have hnar : assembled_narrative industry docs =
        (str "**Industry report:** " ++ industry ++ str "\n\n" ++
         str "**Overview**\n\n" ++
         str "Grounded Wikipedia topics (top matches): " ++
         joinWith (str ", ") ((docs.take 5).map docTitle) ++
         str ".\n\n" ++
         str "This report summarizes the industry" ++ [rq] ++
         str "s definition, typical structure, and recurring themes as described by those pages.\n\n") ++
        fixed_tail := by
      unfold assembled_narrative
      rw [hq, he]
      simp [fixed_tail, List.append_assoc,
        show take_bullets_up_to_words [] 130 = [] from rfl,
        show take_bullets_up_to_words [] 220 = [] from rfl]
    have htail_suffix : fixed_tail <:+ assembled_narrative industry docs := by
      rw [hnar]
      exact List.suffix_append _ _
    have hhead : headWS (assembled_narrative industry docs) = false := by
      rw [hnar, show str "**Industry report:** " = '*' :: str "*Industry report:** " from rfl]
      simp only [List.cons_append]
      rfl
    have hlast : headWS (assembled_narrative industry docs).reverse = false := by
      rw [hnar, List.reverse_append, headWS_append]
      rw [show (fixed_tail.reverse).isEmpty = false from by decide, if_neg (by simp)]
      decide
    have hstrip : strip (assembled_narrative industry docs) =
        assembled_narrative industry docs := strip_eq_self _ hhead hlast
    rw [hbr, hstrip]
    exact ⟨infix_of_suffix_contains fixed_tail _ (by decide) htail_suffix,
      infix_of_suffix_contains fixed_tail _ (by decide) htail_suffix,
      infix_of_suffix_contains fixed_tail _ (by decide) htail_suffix,
      infix_of_suffix_contains fixed_tail _ (by decide) htail_suffix⟩

/-- A 501-word industry name: long enough that the hard 500-word truncation cuts
the report before any section content. -/
def big_industry : Str := joinWords (List.replicate 501 (str "x"))

set_option maxRecDepth 100000 in
/-- C1 counterexample: with a 501-word industry string and no documents (so no
document contributes extract text), the truncated report does not contain the
placeholder bullet at all, so the quick-definitions and grounding-extracts
placeholder guarantee of the claim fails as stated. -/
theorem build_report_truncation_drops_placeholder :
    containsSub placeholder_bullet (build_report big_industry []) = false := by decide

set_option maxRecDepth 100000 in
/-- Witness for C1 at a concrete short industry name and no documents. -/
theorem build_report_word_budget_witness :
    word_count (build_report (str "fintech") []) ≤ 500 ∧
    containsSub (str "**Grounding extracts**\n\n" ++ placeholder_bullet)
      (build_report (str "fintech") []) = true :=
  ⟨(build_report_word_budget_and_placeholders (str "fintech") []).1,
   ((build_report_word_budget_and_placeholders (str "fintech") []).2
     (by simp) (by decide)).2.2.2⟩

/-! ### Claim C2 -/

/-- C2 (code bug): the alternate budget-enforcement path does not enforce the
word budget - with a 1-word budget and the single section "x. y. z." the
returned report has 3 words, because the per-sentence acceptance test compares
against the *current* accumulated word count plus the remaining budget. -/
theorem enforce_budget_violation_example :
    word_count (enforce_lt_500_words_complete [ str "x. y. z."] 1) = 3 := by decide

example : build_report (str "fintech") [] = build_report (str "fintech") [] := rfl

example : has_real_text (str "   ") = false := by decide

example : has_real_text (str "fintech") = true := by decide

example : score_industry_signals (str "Banking") = score_industry_signals (str "  BANKING  ") := by decide

example : 1 ≤ score_industry_signals (str "banking") := by decide

example : score_industry_signals (str "fintech") = 0 := by decide

end MarketResearch
